import Mathlib

/-!
# money-supply: reconciliation of the cached M2SL series

Shallow embedding of `main.go`.

* `time.Time` is an integer number of nanoseconds, `time.Duration` likewise,
  so that `x.Sta.Add(-24*time.Hour)` is integer addition.
* `float64` values are rationals: the program only negates, compares and takes
  absolute values of them.
* `map[time.Time]float64` is a duplicate-free association list.
* `log.Fatal` and panics are the `none` result.
-/

namespace MoneySupply

/-- Instants of `time.Time`, in nanoseconds. -/
abbrev Time := Int

/-- The Go constant `time.Hour`, a duration in nanoseconds. -/
def Hour : Int := 3600000000000

/-- The Go method `Time.Add`. -/
def Time.Add (t : Time) (d : Int) : Time := t + d

/-- The constant `reqlim` of `main.go`. -/
def reqlim : Nat := 100

/-- A Go `map[time.Time]float64`: entries with pairwise distinct keys. -/
structure GoMap where
  entries : List (Time × ℚ)
  nodupKeys : (entries.map Prod.fst).Nodup
deriving DecidableEq

namespace GoMap

/-- The empty map literal `map[time.Time]float64{}`. -/
def empty : GoMap := ⟨[], List.nodup_nil⟩

/-- The comma-ok read `v, ok := m[k]`, with `none` for `ok == false`. -/
def get? (m : GoMap) (k : Time) : Option ℚ :=
  (m.entries.find? (fun e => decide (e.1 = k))).map Prod.snd

/-- The plain read `m[k]`, which yields the zero value for a missing key. -/
def get (m : GoMap) (k : Time) : ℚ := (m.get? k).getD 0

/-- The assignment `m[k] = v`. -/
def set (m : GoMap) (k : Time) (v : ℚ) : GoMap :=
  ⟨(k, v) :: m.entries.filter (fun e => decide (e.1 ≠ k)), by
    rw [List.map_cons, List.nodup_cons]
    refine ⟨?_, (m.nodupKeys.sublist
      (List.Sublist.map Prod.fst (List.filter_sublist m.entries)))⟩
    intro h
    rcases List.mem_map.1 h with ⟨e, he, hk⟩
    have := (List.mem_filter.1 he).2
    simp at this
    exact this hk⟩

/-- The keys of the map. -/
def keys (m : GoMap) : List Time := m.entries.map Prod.fst

end GoMap

/-- Modelled from the spec: what one call `bud.Execute(act)` of the external
breaker does for a grid day. Either the action runs once and `musapi` answers
with a value (`-1` stands for Unknown), or the breaker reports Cancelled
(`budget.IsCancel`), or BudgetExhausted (`budget.IsPassed`), or the process
dies in `log.Fatal` (any other error, or a fatal error inside `musapi`). -/
inductive Outcome where
  | ran (f64 : ℚ)
  | cancel
  | passed
  | fatal
deriving DecidableEq

/-- The mutable variables of the reconciliation loop of `main`: the counter
`cou`, the map `des`, and the days printed by the line
`filling remote money supply for ...`, one per fetch attempt. -/
structure State where
  cou : Nat
  des : GoMap
  log : List Time
deriving DecidableEq

/-- The state before the loop: `var cou int` and an empty `des`. -/
def State.init : State := ⟨0, GoMap.empty, []⟩

/-- The closure `act` of `main`, given the answer of `musapi(x.Sta)`. -/
def act (musapi : ℚ) (des : GoMap) (x : Time) : GoMap :=
  let f64 := musapi
  let pre := des.get (x.Add (-24 * Hour))
  let f64 := if f64 = -1 ∧ pre > 0 then -pre else f64
  let f64 := if f64 = -1 ∧ pre < 0 then pre else f64
  des.set x f64

/-- How one iteration of the loop ends. -/
inductive Ctl where
  | next (s : State)
  | brk (s : State)
  | fatal
deriving DecidableEq

/-- One iteration of `for _, x := range fra.List()` in `main`. -/
def step (cur : GoMap) (exe : Time → Outcome) (s : State) (x : Time) : Ctl :=
  let exi := (cur.get? x).isSome
  let f64 := cur.get x
  if exi ∧ f64 > 0 then
    .next { s with des := s.des.set x f64 }
  else if s.cou < reqlim then
    let cou := if ¬ exi then s.cou + 1 else s.cou
    let log := s.log ++ [x]
    match exe x with
    | .ran f => .next ⟨cou, act f s.des x, log⟩
    | .cancel => .brk ⟨cou, s.des, log⟩
    | .passed => .brk ⟨cou, s.des, log⟩
    | .fatal => .fatal
  else
    .next s

/-- The whole loop over the grid `fra.List()`, from a given state. -/
def loop (cur : GoMap) (exe : Time → Outcome) : State → List Time → Ctl
  | s, [] => .next s
  | s, x :: xs =>
    match step cur exe s x with
    | .next s' => loop cur exe s' xs
    | .brk s' => .brk s'
    | .fatal => .fatal

/-- The state the program goes on with after the loop, if it is still alive. -/
def Ctl.state? : Ctl → Option State
  | .next s => some s
  | .brk s => some s
  | .fatal => none

/-- The struct `csvrow` of `main.go`. -/
structure csvrow where
  Dat : Time
  Supply : ℚ
  Updated : Int
deriving DecidableEq

/-- The body of `for k, v := range des`: the row appended for one entry. -/
def mkrow (e : Time × ℚ) : csvrow :=
  let sup := |e.2|
  let upd : Int := if e.2 > 0 then 1 else 0
  { Dat := e.1, Supply := sup, Updated := upd }

/-- The call `sort.SliceStable(lis, ...)` with the comparison
`lis[i].Dat.Before(lis[j].Dat)`: a stable insertion sort. -/
def sortStable (lis : List csvrow) : List csvrow :=
  lis.insertionSort (fun a b => ¬ b.Dat < a.Dat)

/-- The slice `lis` after sorting, for an iteration order `it` of `des`. -/
def mklis (it : List (Time × ℚ)) : List csvrow :=
  sortStable (it.map mkrow)

/-- The table `res` handed to the CSV writer; `Format` stands for
`Time.Format(time.RFC3339)` and `Sprintf2f` for `fmt.Sprintf("%.2f", _)`. -/
def mkres (Format : Time → String) (Sprintf2f : ℚ → String)
    (lis : List csvrow) : List (List String) :=
  ["date", "supply", "updated"] ::
    lis.map (fun x => [Format x.Dat, Sprintf2f x.Supply, toString x.Updated])

/-- The function `mustim`; `Parse` stands for `time.Parse(time.RFC3339, _)`
and `none` is the `log.Fatal` exit. -/
def mustim (Parse : String → Option Time) (str : String) : Option Time :=
  Parse str

/-- The function `musf64`; `ParseFloat` stands for `strconv.ParseFloat(_, 64)`
and `none` is the `log.Fatal` exit. -/
def musf64 (ParseFloat : String → Option ℚ) (str : String) : Option ℚ :=
  ParseFloat str

/-- The body of `for _, x := range row[1:]`; an index out of range is `none`. -/
def loadRow (Parse : String → Option Time) (ParseFloat : String → Option ℚ)
    (cur : GoMap) (x : List String) : Option GoMap := do
  let x2 ← x[2]?
  let cur ←
    if x2 = "0" then do
      let k ← mustim Parse (← x[0]?)
      let v ← musf64 ParseFloat (← x[1]?)
      pure (cur.set k (-v))
    else pure cur
  let cur ←
    if x2 = "1" then do
      let k ← mustim Parse (← x[0]?)
      let v ← musf64 ParseFloat (← x[1]?)
      pure (cur.set k v)
    else pure cur
  pure cur

/-- The loop `for _, x := range row[1:]` over the data rows. -/
def loadRows (Parse : String → Option Time) (ParseFloat : String → Option ℚ) :
    GoMap → List (List String) → Option GoMap
  | cur, [] => some cur
  | cur, x :: xs =>
    match loadRow Parse ParseFloat cur x with
    | some cur' => loadRows Parse ParseFloat cur' xs
    | none => none

/-- The cache loader of `main`: `cur` built from the table `row`; slicing
`row[1:]` of an empty table panics. -/
def loadCache (Parse : String → Option Time) (ParseFloat : String → Option ℚ)
    (row : List (List String)) : Option GoMap :=
  match row with
  | [] => none
  | _ :: data => loadRows Parse ParseFloat GoMap.empty data

/-- The program `main` from the decoded table `row` to the table `res` it
writes: load the cache, run the loop over the grid, build the sorted rows. -/
def main (Parse : String → Option Time) (ParseFloat : String → Option ℚ)
    (Format : Time → String) (Sprintf2f : ℚ → String)
    (row : List (List String)) (grid : List Time) (exe : Time → Outcome) :
    Option (List (List String)) := do
  let cur ← loadCache Parse ParseFloat row
  let s ← (loop cur exe State.init grid).state?
  pure (mkres Format Sprintf2f (mklis s.des.entries))

/-- The signed value the cache loader stores for a row written for the signed
value `v` when the text of its magnitude parses to `m`: the flag of `v` is "1"
exactly when `v > 0`, and the loader reads flag "1" as `m`, flag "0" as `-m`. -/
def signed (v m : ℚ) : ℚ := if v > 0 then m else -m

/-- Two signed values that are written as the same row, given the value
`rnd |a|` that the magnitude text of `a` parses to: `b` is `a` itself, or `a`
read back from its row, with a magnitude that is still positive. -/
def Close (rnd : ℚ → ℚ) (a b : ℚ) : Prop :=
  b = a ∨ (a ≠ 0 ∧ rnd |a| > 0 ∧ b = signed a (rnd |a|))

/-- Two maps with the same keys and, at each key, values written as the same
row. -/
def Agree (rnd : ℚ → ℚ) (d1 d2 : GoMap) : Prop :=
  ∀ k, (d1.get? k = none ∧ d2.get? k = none) ∨
    ∃ a b, d1.get? k = some a ∧ d2.get? k = some b ∧ Close rnd a b

/-- The grid of `n` consecutive days starting at the instant `sta`. -/
def days (sta : Time) (n : Nat) : List Time :=
  (List.range n).map (fun i => sta + (i : Int) * (24 * Hour))

end MoneySupply



namespace MoneySupply

/-! ## The map -/

theorem GoMap.get?_empty (k : Time) : GoMap.empty.get? k = none := rfl

theorem GoMap.get?_set_self (m : GoMap) (k : Time) (v : ℚ) :
    (m.set k v).get? k = some v := by
  simp [GoMap.set, GoMap.get?]

theorem GoMap.get?_set_ne (m : GoMap) {k k' : Time} (v : ℚ) (h : k' ≠ k) :
    (m.set k v).get? k' = m.get? k' := by
  have hk : ¬ k = k' := fun e => h e.symm
  simp only [GoMap.set, GoMap.get?, List.find?_cons, hk, decide_False]
  congr 1
  induction m.entries with
  | nil => rfl
  | cons e l ih =>
    by_cases he : e.1 = k
    · have h1 : decide (e.1 ≠ k) = false := by simp [he]
      have h2 : decide (e.1 = k') = false := by
        simp only [decide_eq_false_iff_not]
        exact fun e' => h (e'.symm.trans he)
      rw [List.filter_cons, h1, List.find?_cons, h2]
      simpa using ih
    · have h1 : decide (e.1 ≠ k) = true := by simp [he]
      rw [List.filter_cons, h1, if_pos rfl, List.find?_cons, List.find?_cons, ih]

theorem GoMap.get?_eq_some_iff (m : GoMap) (k : Time) (v : ℚ) :
    m.get? k = some v ↔ (k, v) ∈ m.entries := by
  obtain ⟨l, hl⟩ := m
  simp only [GoMap.get?]
  induction l with
  | nil => simp
  | cons e l ih =>
    rw [List.map_cons, List.nodup_cons] at hl
    by_cases he : e.1 = k
    · simp only [List.find?_cons, he, decide_True, Option.map_some', Option.some.injEq,
        List.mem_cons]
      constructor
      · intro h; left; rw [← he, ← h]
      · rintro (h | h)
        · rw [← h]
        · exact absurd (List.mem_map.2 ⟨(k, v), h, rfl⟩) (he ▸ hl.1)
    · simp only [List.find?_cons, he, decide_False, List.mem_cons]
      rw [ih hl.2]
      constructor
      · intro h; exact Or.inr h
      · rintro (h | h)
        · exact absurd (by rw [← h]) he
        · exact h

theorem GoMap.mem_keys_iff (m : GoMap) (k : Time) :
    k ∈ m.keys ↔ ∃ v, m.get? k = some v := by
  simp only [GoMap.keys, List.mem_map, GoMap.get?_eq_some_iff]
  constructor
  · rintro ⟨⟨k', v⟩, h, rfl⟩; exact ⟨v, h⟩
  · rintro ⟨v, h⟩; exact ⟨(k, v), h, rfl⟩

theorem GoMap.get_of_get? {m : GoMap} {k : Time} {v : ℚ} (h : m.get? k = some v) :
    m.get k = v := by
  simp [GoMap.get, h]


/-! ## One iteration -/

theorem step_final (cur : GoMap) (exe : Time → Outcome) (s : State) (x : Time)
    (h : (cur.get? x).isSome ∧ cur.get x > 0) :
    step cur exe s x = .next { s with des := s.des.set x (cur.get x) } := by
  simp only [step]
  rw [if_pos h]

theorem step_fetch (cur : GoMap) (exe : Time → Outcome) (s : State) (x : Time)
    (h : ¬ ((cur.get? x).isSome ∧ cur.get x > 0)) (hc : s.cou < reqlim) :
    step cur exe s x =
      match exe x with
      | .ran f => .next ⟨if ¬ (cur.get? x).isSome then s.cou + 1 else s.cou,
          act f s.des x, s.log ++ [x]⟩
      | .cancel => .brk ⟨if ¬ (cur.get? x).isSome then s.cou + 1 else s.cou,
          s.des, s.log ++ [x]⟩
      | .passed => .brk ⟨if ¬ (cur.get? x).isSome then s.cou + 1 else s.cou,
          s.des, s.log ++ [x]⟩
      | .fatal => .fatal := by
  simp only [step]
  rw [if_neg h, if_pos hc]

theorem step_skip (cur : GoMap) (exe : Time → Outcome) (s : State) (x : Time)
    (h : ¬ ((cur.get? x).isSome ∧ cur.get x > 0)) (hc : ¬ s.cou < reqlim) :
    step cur exe s x = .next s := by
  simp only [step]
  rw [if_neg h, if_neg hc]

theorem act_get?_ne (f : ℚ) (des : GoMap) {x k : Time} (h : k ≠ x) :
    (act f des x).get? k = des.get? k := by
  simp only [act]
  exact GoMap.get?_set_ne des _ h

/-- What one iteration can do to the state: the log grows by at most the day
itself, the counter grows exactly when a day absent from the cache is logged,
and the map changes at most at the day itself. -/
theorem step_effect (cur : GoMap) (exe : Time → Outcome) (s s' : State) (x : Time)
    (h : (step cur exe s x).state? = some s') :
    (∀ k, k ≠ x → s'.des.get? k = s.des.get? k) ∧
    ((s'.log = s.log ∧ s'.cou = s.cou ∧
        (((cur.get? x).isSome ∧ cur.get x > 0) ∨ ¬ s.cou < reqlim)) ∨
      (s'.log = s.log ++ [x] ∧ ¬ ((cur.get? x).isSome ∧ cur.get x > 0) ∧
        s.cou < reqlim ∧
        s'.cou = if ¬ (cur.get? x).isSome then s.cou + 1 else s.cou)) := by
  by_cases hf : (cur.get? x).isSome ∧ cur.get x > 0
  · rw [step_final cur exe s x hf] at h
    simp only [Ctl.state?, Option.some.injEq] at h
    subst h
    exact ⟨fun k hk => GoMap.get?_set_ne _ _ hk, Or.inl ⟨rfl, rfl, Or.inl hf⟩⟩
  · by_cases hc : s.cou < reqlim
    · rw [step_fetch cur exe s x hf hc] at h
      cases he : exe x with
      | ran f =>
        rw [he] at h
        simp only [Ctl.state?, Option.some.injEq] at h
        subst h
        exact ⟨fun k hk => act_get?_ne f s.des hk, Or.inr ⟨rfl, hf, hc, rfl⟩⟩
      | cancel =>
        rw [he] at h
        simp only [Ctl.state?, Option.some.injEq] at h
        subst h
        exact ⟨fun k _ => rfl, Or.inr ⟨rfl, hf, hc, rfl⟩⟩
      | passed =>
        rw [he] at h
        simp only [Ctl.state?, Option.some.injEq] at h
        subst h
        exact ⟨fun k _ => rfl, Or.inr ⟨rfl, hf, hc, rfl⟩⟩
      | fatal =>
        rw [he] at h
        simp [Ctl.state?] at h
    · rw [step_skip cur exe s x hf hc] at h
      simp only [Ctl.state?, Option.some.injEq] at h
      subst h
      exact ⟨fun k _ => rfl, Or.inl ⟨rfl, rfl, Or.inr hc⟩⟩

/-! ## The loop -/

theorem loop_append (cur : GoMap) (exe : Time → Outcome) (s : State)
    (xs ys : List Time) :
    loop cur exe s (xs ++ ys) =
      match loop cur exe s xs with
      | .next s' => loop cur exe s' ys
      | .brk s' => .brk s'
      | .fatal => .fatal := by
  induction xs generalizing s with
  | nil => rfl
  | cons x xs ih =>
    simp only [List.cons_append, loop]
    cases step cur exe s x with
    | next s' => exact ih s'
    | brk s' => rfl
    | fatal => rfl

theorem loop_cons_state (cur : GoMap) (exe : Time → Outcome) (s s' : State)
    (x : Time) (xs : List Time) (h : (loop cur exe s (x :: xs)).state? = some s') :
    (step cur exe s x = .brk s') ∨
      ∃ s1, step cur exe s x = .next s1 ∧ (loop cur exe s1 xs).state? = some s' := by
  simp only [loop] at h
  cases hs : step cur exe s x with
  | next s1 => rw [hs] at h; exact Or.inr ⟨s1, rfl, h⟩
  | brk s1 =>
    rw [hs] at h
    simp only [Ctl.state?, Option.some.injEq] at h
    exact Or.inl (by rw [h])
  | fatal => rw [hs] at h; simp [Ctl.state?] at h

/-- What the loop can do to the state. The log grows by a sublist `l` of the
days gone through, none of them cached with a positive value; the counter
grows by the number of logged days absent from the cache; the map is unchanged
outside the days gone through. -/
theorem loop_effect (cur : GoMap) (exe : Time → Outcome) (xs : List Time) :
    ∀ (s s' : State), (loop cur exe s xs).state? = some s' →
      (∀ k, k ∉ xs → s'.des.get? k = s.des.get? k) ∧
      ∃ l, l.Sublist xs ∧ s'.log = s.log ++ l ∧
        (∀ d ∈ l, ¬ ((cur.get? d).isSome ∧ cur.get d > 0)) ∧
        s'.cou = s.cou + (l.filter (fun d => (cur.get? d).isNone)).length ∧
        (s.cou ≤ reqlim → s'.cou ≤ reqlim) := by
  induction xs with
  | nil =>
    intro s s' h
    simp only [loop, Ctl.state?, Option.some.injEq] at h
    subst h
    exact ⟨fun _ _ => rfl, [], List.Sublist.refl _, by simp, by simp, by simp, id⟩
  | cons x xs ih =>
    intro s s' h
    have key : ∀ s1, (step cur exe s x).state? = some s1 →
        (∀ k, k ≠ x → s1.des.get? k = s.des.get? k) ∧
        ∃ l, l.Sublist [x] ∧ s1.log = s.log ++ l ∧
          (∀ d ∈ l, ¬ ((cur.get? d).isSome ∧ cur.get d > 0)) ∧
          s1.cou = s.cou + (l.filter (fun d => (cur.get? d).isNone)).length ∧
          (s.cou ≤ reqlim → s1.cou ≤ reqlim) := by
      intro s1 h1
      obtain ⟨hd, hl⟩ := step_effect cur exe s s1 x h1
      refine ⟨hd, ?_⟩
      rcases hl with ⟨hl, hc, -⟩ | ⟨hl, hf, hlt, hc⟩
      · exact ⟨[], by simp, by simp [hl], by simp, by simp [hc], by rw [hc]; exact id⟩
      · refine ⟨[x], List.Sublist.refl _, hl, by simpa using hf, ?_, ?_⟩
        · rw [hc]
          cases hg : cur.get? x <;> simp [List.filter_cons, hg]
        · intro _
          rw [hc]
          split <;> omega
    rcases loop_cons_state cur exe s s' x xs h with hb | ⟨s1, hs1, hl1⟩
    · obtain ⟨hd, l, hsub, hlog, hnf, hcou, hle⟩ := key s' (by rw [hb]; rfl)
      refine ⟨fun k hk => hd k (fun e => hk (by simp [e])), l, ?_, hlog, hnf, hcou, hle⟩
      exact hsub.trans (by simp)
    · obtain ⟨hd, l, hsub, hlog, hnf, hcou, hle⟩ := key s1 (by rw [hs1]; rfl)
      obtain ⟨hd', l', hsub', hlog', hnf', hcou', hle'⟩ := ih s1 s' hl1
      refine ⟨?_, l ++ l', ?_, ?_, ?_, ?_, fun h0 => hle' (hle h0)⟩
      · intro k hk
        rw [hd' k (fun e => hk (List.mem_cons_of_mem _ e)),
          hd k (fun e => hk (by simp [e]))]
      · exact List.Sublist.append hsub hsub'
      · rw [hlog', hlog, List.append_assoc]
      · intro d hd0
        rcases List.mem_append.1 hd0 with h0 | h0
        · exact hnf d h0
        · exact hnf' d h0
      · rw [hcou', hcou, List.filter_append, List.length_append]; omega


/-- A day cached with a positive value and already stored in `des` with that
value keeps it through the rest of the loop. -/
theorem loop_keeps_final (cur : GoMap) (exe : Time → Outcome) (x : Time) (v : ℚ)
    (hx : cur.get? x = some v) (hv : v > 0) (xs : List Time) :
    ∀ (s s' : State), s.des.get? x = some v →
      (loop cur exe s xs).state? = some s' → s'.des.get? x = some v := by
  induction xs with
  | nil =>
    intro s s' hs h
    simp only [loop, Ctl.state?, Option.some.injEq] at h
    subst h
    exact hs
  | cons y ys ih =>
    intro s s' hs h
    have hstep : ∀ s1, (step cur exe s y).state? = some s1 → s1.des.get? x = some v := by
      intro s1 h1
      by_cases hxy : x = y
      · subst hxy
        have hf : (cur.get? x).isSome ∧ cur.get x > 0 := by
          rw [GoMap.get_of_get? hx, hx]; exact ⟨rfl, hv⟩
        rw [step_final cur exe s x hf] at h1
        simp only [Ctl.state?, Option.some.injEq] at h1
        subst h1
        rw [GoMap.get_of_get? hx]
        exact GoMap.get?_set_self _ _ _
      · rw [(step_effect cur exe s s1 y h1).1 x hxy]; exact hs
    rcases loop_cons_state cur exe s s' y ys h with hb | ⟨s1, hs1, hl1⟩
    · exact hstep s' (by rw [hb]; rfl)
    · exact ih s1 s' (hstep s1 (by rw [hs1]; rfl)) hl1

/-- C1 (amended): a grid day cached with a positive (Finalized) value is in the
output map of the run with exactly the cached value, whatever the fetcher
answers for the other days, provided the loop reaches that day, that is, the
breaker did not stop the loop at an earlier grid day. -/
theorem finalized_cached_value_kept (cur : GoMap) (exe : Time → Outcome)
    (pre post : List Time) (x : Time) (v : ℚ) (s s' : State)
    (hx : cur.get? x = some v) (hv : v > 0)
    (hpre : loop cur exe State.init pre = .next s)
    (hrun : (loop cur exe State.init (pre ++ x :: post)).state? = some s') :
    s'.des.get? x = some v := by
  rw [loop_append, hpre] at hrun
  have hf : (cur.get? x).isSome ∧ cur.get x > 0 := by
    rw [GoMap.get_of_get? hx, hx]; exact ⟨rfl, hv⟩
  rcases loop_cons_state cur exe s s' x post hrun with hb | ⟨s1, hs1, hl1⟩
  · rw [step_final cur exe s x hf] at hb
    cases hb
  · rw [step_final cur exe s x hf] at hs1
    cases hs1
    refine loop_keeps_final cur exe x v hx hv post _ s' ?_ hl1
    rw [GoMap.get_of_get? hx]
    exact GoMap.get?_set_self _ _ _

/-- Witness of C1 (amended): day 0 is fetched, day 1 is cached with value 5. -/
theorem finalized_cached_value_kept_witness :
    (GoMap.empty.set (24 * Hour) 5).get? (24 * Hour) = some 5 ∧
    loop (GoMap.empty.set (24 * Hour) 5) (fun _ => Outcome.ran 7) State.init [0]
      = .next ⟨1, GoMap.empty.set 0 7, [0]⟩ ∧
    (loop (GoMap.empty.set (24 * Hour) 5) (fun _ => Outcome.ran 7) State.init
        ([0] ++ 24 * Hour :: [])).state?
      = some ⟨1, (GoMap.empty.set 0 7).set (24 * Hour) 5, [0]⟩ ∧
    ((GoMap.empty.set 0 7).set (24 * Hour) 5).get? (24 * Hour) = some 5 :=
  ⟨by decide, by decide, by decide,
    finalized_cached_value_kept (GoMap.empty.set (24 * Hour) 5)
      (fun _ => Outcome.ran 7) [0] [] (24 * Hour) 5
      ⟨1, GoMap.empty.set 0 7, [0]⟩
      ⟨1, (GoMap.empty.set 0 7).set (24 * Hour) 5, [0]⟩
      (by decide) (by decide) (by decide) (by decide)⟩

/-- C1 (as stated) fails: with day 1 cached as Finalized 5 and the breaker
reporting Cancelled on day 0, the loop stops before day 1 and the output map,
which starts empty, does not contain day 1. -/
theorem finalized_cached_value_lost :
    ¬ ∀ (cur : GoMap) (exe : Time → Outcome) (grid : List Time) (x : Time) (v : ℚ)
        (s : State), x ∈ grid → cur.get? x = some v → v > 0 →
        (loop cur exe State.init grid).state? = some s → s.des.get? x = some v := by
  intro h
  have h1 := h (GoMap.empty.set (24 * Hour) 5) (fun _ => Outcome.cancel)
    [0, 24 * Hour] (24 * Hour) 5 ⟨1, GoMap.empty, [0]⟩
    (by decide) (by decide) (by decide) (by decide)
  revert h1
  decide


/-- The value `act` stores for an Unknown answer `-1`. -/
theorem act_unknown (des : GoMap) (x : Time) :
    (act (-1) des x).get? x =
      some (if des.get (x.Add (-24 * Hour)) = 0 then -1
        else -|des.get (x.Add (-24 * Hour))|) := by
  show (des.set x _).get? x = _
  rw [GoMap.get?_set_self]
  congr 1
  generalize des.get (x.Add (-24 * Hour)) = p
  rcases lt_trichotomy p 0 with h | h | h
  · simp [h, not_lt.2 h.le, h.ne, abs_of_neg h]
  · simp [h]
  · simp [h, not_lt.2 h.le, h.ne', abs_of_pos h]

/-- C2: when the loop has reached a grid day `x` that it fetches (not cached
as Finalized, quota not reached), the fetcher answers Unknown (`-1`) and the
accumulated value `p` of the day 24 hours before is non-zero, the value stored
for `x` is `-|p|`: `-p` when `p > 0` and `p` itself when `p < 0`. -/
theorem unknown_carries_forward (cur : GoMap) (exe : Time → Outcome)
    (pre : List Time) (x : Time) (s : State)
    (hpre : loop cur exe State.init pre = .next s)
    (hf : ¬ ((cur.get? x).isSome ∧ cur.get x > 0)) (hc : s.cou < reqlim)
    (hu : exe x = .ran (-1)) (hp : s.des.get (x.Add (-24 * Hour)) ≠ 0) :
    ∃ s', loop cur exe State.init (pre ++ [x]) = .next s' ∧
      s'.des.get? x = some (-|s.des.get (x.Add (-24 * Hour))|) ∧
      (s.des.get (x.Add (-24 * Hour)) > 0 →
        s'.des.get? x = some (-(s.des.get (x.Add (-24 * Hour))))) ∧
      (s.des.get (x.Add (-24 * Hour)) < 0 →
        s'.des.get? x = some (s.des.get (x.Add (-24 * Hour)))) := by
  have hl : loop cur exe State.init (pre ++ [x]) =
      .next ⟨if ¬ (cur.get? x).isSome then s.cou + 1 else s.cou,
        act (-1) s.des x, s.log ++ [x]⟩ := by
    rw [loop_append, hpre]
    simp only [loop]
    rw [step_fetch cur exe s x hf hc, hu]
  refine ⟨_, hl, ?_, ?_, ?_⟩
  · show (act (-1) s.des x).get? x = _
    rw [act_unknown, if_neg hp]
  · intro h
    show (act (-1) s.des x).get? x = _
    rw [act_unknown, if_neg hp, abs_of_pos h]
  · intro h
    show (act (-1) s.des x).get? x = _
    rw [act_unknown, if_neg hp, abs_of_neg h, neg_neg]

/-- Witness of C2: day 0 is fetched as 100, day 1 is Unknown. -/
theorem unknown_carries_forward_witness :
    loop GoMap.empty (fun d => if d = 0 then Outcome.ran 100 else Outcome.ran (-1))
      State.init [0] = .next ⟨1, GoMap.empty.set 0 100, [0]⟩ ∧
    ∃ s', loop GoMap.empty
        (fun d => if d = 0 then Outcome.ran 100 else Outcome.ran (-1))
        State.init ([0] ++ [24 * Hour]) = .next s' ∧
      s'.des.get? (24 * Hour) =
        some (-|(GoMap.empty.set 0 100).get (Time.Add (24 * Hour) (-24 * Hour))|) ∧
      ((GoMap.empty.set 0 100).get (Time.Add (24 * Hour) (-24 * Hour)) > 0 →
        s'.des.get? (24 * Hour) =
          some (-((GoMap.empty.set 0 100).get (Time.Add (24 * Hour) (-24 * Hour))))) ∧
      ((GoMap.empty.set 0 100).get (Time.Add (24 * Hour) (-24 * Hour)) < 0 →
        s'.des.get? (24 * Hour) =
          some ((GoMap.empty.set 0 100).get (Time.Add (24 * Hour) (-24 * Hour)))) :=
  ⟨by decide,
    unknown_carries_forward GoMap.empty
      (fun d => if d = 0 then Outcome.ran 100 else Outcome.ran (-1)) [0] (24 * Hour)
      ⟨1, GoMap.empty.set 0 100, [0]⟩ (by decide) (by decide) (by decide) (by decide)
      (by decide)⟩

/-- C3 (amended): when the loop has reached a grid day `x` that it fetches, the
fetcher answers Unknown (`-1`) and the day 24 hours before has no accumulated
value (`pre == 0`), the sentinel `-1` itself is stored for `x`: the day is in
the output map as Provisional with magnitude 1, and its row is written. -/
theorem unknown_without_predecessor (cur : GoMap) (exe : Time → Outcome)
    (pre : List Time) (x : Time) (s : State)
    (hpre : loop cur exe State.init pre = .next s)
    (hf : ¬ ((cur.get? x).isSome ∧ cur.get x > 0)) (hc : s.cou < reqlim)
    (hu : exe x = .ran (-1)) (hp : s.des.get (x.Add (-24 * Hour)) = 0) :
    ∃ s', loop cur exe State.init (pre ++ [x]) = .next s' ∧
      s'.des.get? x = some (-1) ∧ mkrow (x, -1) ∈ mklis s'.des.entries ∧
      mkrow (x, -1) = ⟨x, 1, 0⟩ := by
  have hl : loop cur exe State.init (pre ++ [x]) =
      .next ⟨if ¬ (cur.get? x).isSome then s.cou + 1 else s.cou,
        act (-1) s.des x, s.log ++ [x]⟩ := by
    rw [loop_append, hpre]
    simp only [loop]
    rw [step_fetch cur exe s x hf hc, hu]
  have hg : (act (-1) s.des x).get? x = some (-1) := by
    rw [act_unknown, if_pos hp]
  refine ⟨_, hl, hg, ?_, ?_⟩
  · show mkrow (x, -1) ∈ mklis (act (-1) s.des x).entries
    simp only [mklis, sortStable]
    rw [(List.perm_insertionSort _ _).mem_iff]
    exact List.mem_map_of_mem _ ((GoMap.get?_eq_some_iff _ _ _).1 hg)
  · simp [mkrow]

/-- Witness of C3 (amended): the first grid day, empty cache, Unknown. -/
theorem unknown_without_predecessor_witness :
    ∃ s', loop GoMap.empty (fun _ => Outcome.ran (-1)) State.init ([] ++ [0])
        = .next s' ∧
      s'.des.get? 0 = some (-1) ∧ mkrow (0, -1) ∈ mklis s'.des.entries ∧
      mkrow (0, -1) = ⟨0, 1, 0⟩ :=
  unknown_without_predecessor GoMap.empty (fun _ => Outcome.ran (-1)) [] 0
    State.init (by decide) (by decide) (by decide) (by decide) (by decide)

/-- C3 (as stated) fails: on the first grid day with an empty cache and an
Unknown answer, the day is present in the output map, with the value `-1`, and
is written as the row with supply 1 and flag 0. -/
theorem unknown_without_predecessor_is_stored :
    State.init.des.get (Time.Add 0 (-24 * Hour)) = 0 ∧
    (loop GoMap.empty (fun _ => Outcome.ran (-1)) State.init [0]).state?.map
      (fun s => (s.des.get? 0, mklis s.des.entries))
      = some (some (-1), [⟨0, 1, 0⟩]) := by
  decide


theorem loop_split (cur : GoMap) (exe : Time → Outcome) (s0 s s' : State)
    (pre post : List Time) (x : Time) (hpre : loop cur exe s0 pre = .next s)
    (hrun : (loop cur exe s0 (pre ++ x :: post)).state? = some s') :
    (step cur exe s x = .brk s') ∨
      ∃ s1, step cur exe s x = .next s1 ∧ (loop cur exe s1 post).state? = some s' := by
  rw [loop_append, hpre] at hrun
  exact loop_cons_state cur exe s s' x post hrun

/-- From the initial state, the map holds nothing outside the days gone
through and the log holds only days gone through. -/
theorem loop_init_untouched (cur : GoMap) (exe : Time → Outcome) (xs : List Time)
    (s : State) (h : (loop cur exe State.init xs).state? = some s) (x : Time)
    (hx : x ∉ xs) : s.des.get? x = none ∧ x ∉ s.log := by
  obtain ⟨hd, l, hsub, hlog, -, -, -⟩ := loop_effect cur exe xs State.init s h
  refine ⟨by rw [hd x hx]; rfl, ?_⟩
  rw [hlog]
  simp only [State.init, List.nil_append]
  exact fun hm => hx (hsub.subset hm)

/-- The counter after a loop that was not stopped: the number of days absent
from the cache, capped by the quota. -/
theorem loop_cou (cur : GoMap) (exe : Time → Outcome) (xs : List Time) :
    ∀ (s s' : State), s.cou ≤ reqlim → loop cur exe s xs = .next s' →
      s'.cou = min reqlim (s.cou + (xs.filter (fun d => (cur.get? d).isNone)).length) := by
  induction xs with
  | nil =>
    intro s s' hle h
    simp only [loop, Ctl.next.injEq] at h
    subst h
    simp [hle]
  | cons x xs ih =>
    intro s s' hle h
    simp only [loop] at h
    cases hs : step cur exe s x with
    | brk s1 => rw [hs] at h; cases h
    | fatal => rw [hs] at h; cases h
    | next s1 =>
      rw [hs] at h
      obtain ⟨-, he⟩ := step_effect cur exe s s1 x (by rw [hs]; rfl)
      rcases he with ⟨-, hc, hf | hq⟩ | ⟨-, hf, hlt, hc⟩
      · have hn : (cur.get? x).isNone = false := by
          cases hg : cur.get? x
          · rw [hg] at hf; exact absurd hf.1 (by simp)
          · rfl
        rw [ih s1 s' (by rw [hc]; exact hle) h, hc, List.filter_cons, hn]
        simp
      · rw [ih s1 s' (by rw [hc]; exact hle) h, hc, List.filter_cons]
        split
        · simp; omega
        · simp
      · have hle1 : s1.cou ≤ reqlim := by rw [hc]; split <;> omega
        rw [ih s1 s' hle1 h, hc, List.filter_cons]
        cases hg : cur.get? x
        · simp; omega
        · simp


set_option maxRecDepth 100000

/-- Once the counter has reached the quota, a day gone through once is
neither fetched nor stored unless it is cached with a positive value. -/
theorem loop_after_quota (cur : GoMap) (exe : Time → Outcome)
    (pre post : List Time) (x : Time) (s s' : State)
    (hnd : (pre ++ x :: post).Nodup)
    (hpre : loop cur exe State.init pre = .next s) (hq : reqlim ≤ s.cou)
    (hrun : (loop cur exe State.init (pre ++ x :: post)).state? = some s') :
    (¬ ((cur.get? x).isSome ∧ cur.get x > 0) → s'.des.get? x = none) ∧
      x ∉ s'.log := by
  have hxpre : x ∉ pre := fun hm =>
    (List.nodup_append.1 hnd).2.2 hm (List.mem_cons_self x post) 
  have hxpost : x ∉ post := (List.nodup_cons.1 (List.nodup_append.1 hnd).2.1).1
  obtain ⟨hsd, hsl⟩ := loop_init_untouched cur exe pre s (by rw [hpre]; rfl) x hxpre
  have hstep : ∀ s1, (step cur exe s x).state? = some s1 →
      s1.log = s.log ∧ (¬ ((cur.get? x).isSome ∧ cur.get x > 0) → s1 = s) := by
    intro s1 h1
    obtain ⟨-, he⟩ := step_effect cur exe s s1 x h1
    rcases he with ⟨hl, -, -⟩ | ⟨-, -, hlt, -⟩
    · refine ⟨hl, fun hf => ?_⟩
      rw [step_skip cur exe s x hf (by omega)] at h1
      simp only [Ctl.state?, Option.some.injEq] at h1
      exact h1.symm
    · omega
  rcases loop_split cur exe State.init s s' pre post x hpre hrun with hb | ⟨s1, hs1, hl1⟩
  · obtain ⟨hl, he⟩ := hstep s' (by rw [hb]; rfl)
    exact ⟨fun hf => by rw [he hf]; exact hsd, by rw [hl]; exact hsl⟩
  · obtain ⟨hl, he⟩ := hstep s1 (by rw [hs1]; rfl)
    obtain ⟨hd, l, hsub, hlog, -, -, -⟩ := loop_effect cur exe post s1 s' hl1
    refine ⟨fun hf => ?_, ?_⟩
    · rw [hd x hxpost, he hf]; exact hsd
    · rw [hlog, hl, List.mem_append]
      rintro (hm | hm)
      · exact hsl hm
      · exact hxpost (hsub.subset hm)

/-- A day cached with a positive value is stored with that value whenever the
loop reaches it and the program goes on to write its output. -/
theorem loop_final_kept (cur : GoMap) (exe : Time → Outcome)
    (pre post : List Time) (x : Time) (v : ℚ) (s0 s s' : State)
    (hx : cur.get? x = some v) (hv : v > 0)
    (hpre : loop cur exe s0 pre = .next s)
    (hrun : (loop cur exe s0 (pre ++ x :: post)).state? = some s') :
    s'.des.get? x = some v := by
  have hf : (cur.get? x).isSome ∧ cur.get x > 0 := by
    rw [GoMap.get_of_get? hx, hx]; exact ⟨rfl, hv⟩
  rcases loop_split cur exe s0 s s' pre post x hpre hrun with hb | ⟨s1, hs1, hl1⟩
  · rw [step_final cur exe s x hf] at hb
    cases hb
  · rw [step_final cur exe s x hf] at hs1
    cases hs1
    refine loop_keeps_final cur exe x v hx hv post _ s' ?_ hl1
    rw [GoMap.get_of_get? hx]
    exact GoMap.get?_set_self _ _ _

/-- C4 (amended): once the counter has reached the quota, a remaining day of a
grid without repeated days is never fetched; it is in the output with its
cached value if it is cached as Finalized (positive value), and it is absent
from the output otherwise, whether it is cached as Provisional or not cached
at all. -/
theorem after_quota_only_finalized_kept (cur : GoMap) (exe : Time → Outcome)
    (pre post : List Time) (x : Time) (s s' : State)
    (hnd : (pre ++ x :: post).Nodup)
    (hpre : loop cur exe State.init pre = .next s) (hq : reqlim ≤ s.cou)
    (hrun : (loop cur exe State.init (pre ++ x :: post)).state? = some s') :
    (∀ v, cur.get? x = some v → v > 0 → s'.des.get? x = some v) ∧
    (∀ v, cur.get? x = some v → v ≤ 0 → s'.des.get? x = none) ∧
    (cur.get? x = none → s'.des.get? x = none) ∧
    x ∉ s'.log := by
  obtain ⟨h1, h2⟩ := loop_after_quota cur exe pre post x s s' hnd hpre hq hrun
  refine ⟨fun v hx hv => loop_final_kept cur exe pre post x v _ s s' hx hv hpre hrun,
    fun v hx hv => h1 ?_, fun hx => h1 ?_, h2⟩
  · rw [GoMap.get_of_get? hx]
    exact fun hf => absurd hf.2 (not_lt.2 hv)
  · rw [hx]
    exact fun hf => absurd hf.1 (by simp)

/-- Witness of C4 (amended): 100 uncached days, then a day cached as
Provisional. -/
theorem after_quota_only_finalized_kept_witness :
    (days 0 100 ++ 100 * (24 * Hour) :: []).Nodup ∧
    loop (GoMap.empty.set (100 * (24 * Hour)) (-5)) (fun _ => Outcome.ran 1)
      State.init (days 0 100) =
        .next ⟨100, (days 0 100).foldl (fun m d => m.set d 1) GoMap.empty,
          days 0 100⟩ ∧
    (loop (GoMap.empty.set (100 * (24 * Hour)) (-5)) (fun _ => Outcome.ran 1)
      State.init (days 0 100 ++ 100 * (24 * Hour) :: [])).state? =
        some ⟨100, (days 0 100).foldl (fun m d => m.set d 1) GoMap.empty,
          days 0 100⟩ ∧
    (∀ v, (GoMap.empty.set (100 * (24 * Hour)) (-5)).get? (100 * (24 * Hour)) = some v →
      v > 0 → ((days 0 100).foldl (fun m d => m.set d 1) GoMap.empty).get?
        (100 * (24 * Hour)) = some v) ∧
    (∀ v, (GoMap.empty.set (100 * (24 * Hour)) (-5)).get? (100 * (24 * Hour)) = some v →
      v ≤ 0 → ((days 0 100).foldl (fun m d => m.set d 1) GoMap.empty).get?
        (100 * (24 * Hour)) = none) ∧
    ((GoMap.empty.set (100 * (24 * Hour)) (-5)).get? (100 * (24 * Hour)) = none →
      ((days 0 100).foldl (fun m d => m.set d 1) GoMap.empty).get?
        (100 * (24 * Hour)) = none) ∧
    100 * (24 * Hour) ∉ days 0 100 :=
  ⟨by decide, by decide, by decide,
    after_quota_only_finalized_kept (GoMap.empty.set (100 * (24 * Hour)) (-5))
      (fun _ => Outcome.ran 1) (days 0 100) [] (100 * (24 * Hour))
      ⟨100, (days 0 100).foldl (fun m d => m.set d 1) GoMap.empty, days 0 100⟩
      ⟨100, (days 0 100).foldl (fun m d => m.set d 1) GoMap.empty, days 0 100⟩
      (by decide) (by decide) (by decide) (by decide)⟩

/-- C4 (as stated) fails: after 100 uncached days have used up the quota, day
100, cached as Provisional with the value `-5`, is not in the output. -/
theorem after_quota_provisional_dropped :
    (GoMap.empty.set (100 * (24 * Hour)) (-5)).get? (100 * (24 * Hour)) = some (-5) ∧
    (loop (GoMap.empty.set (100 * (24 * Hour)) (-5)) (fun _ => Outcome.ran 1)
      State.init (days 0 100)).state?.map State.cou = some reqlim ∧
    (loop (GoMap.empty.set (100 * (24 * Hour)) (-5)) (fun _ => Outcome.ran 1)
      State.init (days 0 101)).state?.map (fun s => s.des.get? (100 * (24 * Hour)))
      = some none := by
  decide


/-- C5 (amended): in one run the fetch attempts for days absent from the cache
never exceed `reqlim`; days cached as Provisional are fetched again without
being counted, so all fetch attempts together are bounded by `reqlim` plus
the number of grid days cached with a non-positive value; and in a grid
without repeated days an uncached day that comes after `reqlim` or more
uncached days is not fetched and stays absent from the output. -/
theorem fetches_of_uncached_days_bounded (cur : GoMap) (exe : Time → Outcome)
    (grid : List Time) (s : State)
    (hrun : (loop cur exe State.init grid).state? = some s) :
    (s.log.filter (fun d => (cur.get? d).isNone)).length ≤ reqlim ∧
    s.log.length ≤ reqlim +
      (grid.filter (fun d => (cur.get? d).isSome && decide (cur.get d ≤ 0))).length ∧
    (∀ pre x post, grid = pre ++ x :: post → grid.Nodup → cur.get? x = none →
      reqlim ≤ (pre.filter (fun d => (cur.get? d).isNone)).length →
      x ∉ s.log ∧ s.des.get? x = none) := by
  obtain ⟨-, l, hsub, hlog, hnf, hcou, hle⟩ := loop_effect cur exe grid State.init s hrun
  have hl : s.log = l := by rw [hlog]; rfl
  have hc : (l.filter (fun d => (cur.get? d).isNone)).length ≤ reqlim := by
    have h1 := hle (Nat.zero_le _)
    rw [hcou] at h1
    simp only [State.init] at h1
    omega
  refine ⟨by rw [hl]; exact hc, ?_, ?_⟩
  · rw [hl]
    have hsplit : l.length = (l.filter (fun d => (cur.get? d).isNone)).length +
        (l.filter (fun d => (cur.get? d).isSome && decide (cur.get d ≤ 0))).length := by
      clear hsub hlog hcou hle hl hc hrun
      induction l with
      | nil => rfl
      | cons d l ih =>
        have hd := hnf d (List.mem_cons_self d l)
        have ih' := ih (fun d' hd' => hnf d' (List.mem_cons_of_mem _ hd'))
        cases hg : cur.get? d with
        | none => simp [List.filter_cons, hg, ih']; omega
        | some v =>
          have hv : cur.get d ≤ 0 := by
            rw [hg] at hd
            exact not_lt.1 (fun h => hd ⟨rfl, h⟩)
          simp [List.filter_cons, hg, hv, ih']; omega
    have hs2 := (List.Sublist.filter
      (fun d => (cur.get? d).isSome && decide (cur.get d ≤ 0)) hsub).length_le
    omega
  · intro pre x post hg hnd hx hn
    subst hg
    cases hp : loop cur exe State.init pre with
    | next s1 =>
      have hc1 := loop_cou cur exe pre State.init s1 (Nat.zero_le _) hp
      have hq : reqlim ≤ s1.cou := by
        rw [hc1]; simp only [State.init]; omega
      obtain ⟨h1, h2⟩ := loop_after_quota cur exe pre post x s1 s hnd hp hq hrun
      exact ⟨h2, h1 (by rw [hx]; exact fun hf => absurd hf.1 (by simp))⟩
    | brk s1 =>
      rw [loop_append, hp] at hrun
      simp only [Ctl.state?, Option.some.injEq] at hrun
      subst hrun
      have hxpre : x ∉ pre := fun hm =>
        (List.nodup_append.1 hnd).2.2 hm (List.mem_cons_self x post)
      obtain ⟨h1, h2⟩ := loop_init_untouched cur exe pre s1 (by rw [hp]; rfl) x hxpre
      exact ⟨h2, h1⟩
    | fatal =>
      rw [loop_append, hp] at hrun
      simp [Ctl.state?] at hrun

/-- Witness of C5 (amended): an empty cache and 101 days. -/
theorem fetches_of_uncached_days_bounded_witness :
    (loop GoMap.empty (fun _ => Outcome.ran 1) State.init (days 0 101)).state? =
      some ⟨100, (days 0 100).foldl (fun m d => m.set d 1) GoMap.empty, days 0 100⟩ ∧
    ((days 0 100).filter (fun d => (GoMap.empty.get? d).isNone)).length ≤ reqlim ∧
    (days 0 100).length ≤ reqlim + ((days 0 101).filter
      (fun d => (GoMap.empty.get? d).isSome && decide (GoMap.empty.get d ≤ 0))).length ∧
    (∀ pre x post, days 0 101 = pre ++ x :: post → (days 0 101).Nodup →
      GoMap.empty.get? x = none →
      reqlim ≤ (pre.filter (fun d => (GoMap.empty.get? d).isNone)).length →
      x ∉ days 0 100 ∧
        ((days 0 100).foldl (fun m d => m.set d 1) GoMap.empty).get? x = none) :=
  ⟨by decide,
    fetches_of_uncached_days_bounded GoMap.empty (fun _ => Outcome.ran 1) (days 0 101)
      ⟨100, (days 0 100).foldl (fun m d => m.set d 1) GoMap.empty, days 0 100⟩
      (by decide)⟩

/-- C5 (as stated) fails: with 101 grid days all cached as Provisional, the
counter stays 0 and the fetcher is invoked 101 times, more than `reqlim`. -/
theorem fetches_can_exceed_quota :
    (loop ((days 0 101).foldl (fun m d => m.set d (-5)) GoMap.empty)
      (fun _ => Outcome.ran (-1)) State.init (days 0 101)).state?.map
      (fun s => (s.cou, s.log.length)) = some (0, 101) ∧ reqlim < 101 := by
  decide

/-- C6: if the breaker reports Cancelled or BudgetExhausted on the grid day
`k` (a day the loop fetches), the loop stops there. The resulting map is the
map accumulated over the days before `k`, the log is the log of those days
followed by `k`, no later day is fetched or stored, the program goes on to
write its output, and the table `main` writes is the table of that map: every
accumulated value is turned into an output row. -/
theorem cancel_stops_loop (Parse : String → Option Time)
    (ParseFloat : String → Option ℚ) (Format : Time → String)
    (Sprintf2f : ℚ → String) (row : List (List String))
    (cur : GoMap) (exe : Time → Outcome)
    (pre post : List Time) (k : Time) (s : State)
    (hcur : loadCache Parse ParseFloat row = some cur)
    (hpre : loop cur exe State.init pre = .next s)
    (hf : ¬ ((cur.get? k).isSome ∧ cur.get k > 0)) (hc : s.cou < reqlim)
    (hb : exe k = .cancel ∨ exe k = .passed) :
    ∃ s', loop cur exe State.init (pre ++ k :: post) = .brk s' ∧
      (loop cur exe State.init (pre ++ k :: post)).state? = some s' ∧
      s'.des = s.des ∧ s'.log = s.log ++ [k] ∧
      (∀ d, d ∈ post → d ∉ pre → d ≠ k → d ∉ s'.log ∧ s'.des.get? d = none) ∧
      (∀ d v, s.des.get? d = some v →
        s'.des.get? d = some v ∧ mkrow (d, v) ∈ mklis s'.des.entries) ∧
      (∀ r, r ∈ mklis s'.des.entries → ∃ d v, s.des.get? d = some v ∧ r = mkrow (d, v)) ∧
      main Parse ParseFloat Format Sprintf2f row (pre ++ k :: post) exe =
        some (mkres Format Sprintf2f (mklis s.des.entries)) ∧
      (∀ d v, s.des.get? d = some v →
        [Format d, Sprintf2f |v|, toString (if v > 0 then (1 : Int) else 0)] ∈
          (mkres Format Sprintf2f (mklis s.des.entries)).tail) := by
  have hl : loop cur exe State.init (pre ++ k :: post) =
      .brk ⟨if ¬ (cur.get? k).isSome then s.cou + 1 else s.cou, s.des, s.log ++ [k]⟩ := by
    rw [loop_append, hpre]
    simp only [loop]
    rw [step_fetch cur exe s k hf hc]
    rcases hb with hb | hb <;> rw [hb]
  have hmem : ∀ r, r ∈ mklis s.des.entries ↔ r ∈ s.des.entries.map mkrow := by
    intro r
    simp only [mklis, sortStable]
    exact (List.perm_insertionSort _ _).mem_iff
  refine ⟨_, hl, by rw [hl]; rfl, rfl, rfl, ?_, ?_, ?_, ?_, ?_⟩
  · intro d _ hd hk
    obtain ⟨h1, h2⟩ := loop_init_untouched cur exe pre s (by rw [hpre]; rfl) d hd
    refine ⟨?_, h1⟩
    show d ∉ s.log ++ [k]
    rw [List.mem_append]
    rintro (hm | hm)
    · exact h2 hm
    · exact hk (List.mem_singleton.1 hm)
  · intro d v hv
    refine ⟨hv, ?_⟩
    show mkrow (d, v) ∈ mklis s.des.entries
    rw [hmem]
    exact List.mem_map_of_mem _ ((GoMap.get?_eq_some_iff _ _ _).1 hv)
  · intro r hr
    have hr' : r ∈ s.des.entries.map mkrow := (hmem r).1 hr
    obtain ⟨⟨d, v⟩, he, rfl⟩ := List.mem_map.1 hr'
    exact ⟨d, v, (GoMap.get?_eq_some_iff _ _ _).2 he, rfl⟩
  · simp [main, hcur, hl, Ctl.state?]
  · intro d v hv
    simp only [mkres, List.tail_cons]
    refine List.mem_map.2 ⟨mkrow (d, v), ?_, rfl⟩
    rw [hmem]
    exact List.mem_map_of_mem _ ((GoMap.get?_eq_some_iff _ _ _).1 hv)

/-- Witness of C6: day 0 is fetched as 10, day 1 is cancelled, day 2 follows;
the table written holds the row of day 0 only. -/
theorem cancel_stops_loop_witness :
    loadCache (fun _ => none) (fun _ => none) [["date", "supply", "updated"]] =
      some GoMap.empty ∧
    loop GoMap.empty (fun d => if d = 0 then Outcome.ran 10 else Outcome.cancel)
      State.init [0] = .next ⟨1, GoMap.empty.set 0 10, [0]⟩ ∧
    main (fun _ => none) (fun _ => none) (fun _ => "1970-01-01T00:00:00Z")
      (fun _ => "10.00") [["date", "supply", "updated"]]
      ([0] ++ 24 * Hour :: [48 * Hour])
      (fun d => if d = 0 then Outcome.ran 10 else Outcome.cancel) =
      some [["date", "supply", "updated"], ["1970-01-01T00:00:00Z", "10.00", "1"]] ∧
    ∃ s', loop GoMap.empty (fun d => if d = 0 then Outcome.ran 10 else Outcome.cancel)
        State.init ([0] ++ 24 * Hour :: [48 * Hour]) = .brk s' ∧
      (loop GoMap.empty (fun d => if d = 0 then Outcome.ran 10 else Outcome.cancel)
        State.init ([0] ++ 24 * Hour :: [48 * Hour])).state? = some s' ∧
      s'.des = GoMap.empty.set 0 10 ∧ s'.log = [0] ++ [24 * Hour] ∧
      (∀ d, d ∈ [48 * Hour] → d ∉ [(0 : Time)] → d ≠ 24 * Hour →
        d ∉ s'.log ∧ s'.des.get? d = none) ∧
      (∀ d v, (GoMap.empty.set 0 10).get? d = some v →
        s'.des.get? d = some v ∧ mkrow (d, v) ∈ mklis s'.des.entries) ∧
      (∀ r, r ∈ mklis s'.des.entries →
        ∃ d v, (GoMap.empty.set 0 10).get? d = some v ∧ r = mkrow (d, v)) ∧
      main (fun _ => none) (fun _ => none) (fun _ => "1970-01-01T00:00:00Z")
        (fun _ => "10.00") [["date", "supply", "updated"]]
        ([0] ++ 24 * Hour :: [48 * Hour])
        (fun d => if d = 0 then Outcome.ran 10 else Outcome.cancel) =
        some (mkres (fun _ => "1970-01-01T00:00:00Z") (fun _ => "10.00")
          (mklis (GoMap.empty.set 0 10).entries)) ∧
      (∀ d v, (GoMap.empty.set 0 10).get? d = some v →
        [(fun _ => "1970-01-01T00:00:00Z") d, (fun _ => "10.00") |v|,
            toString (if v > 0 then (1 : Int) else 0)] ∈
          (mkres (fun _ => "1970-01-01T00:00:00Z") (fun _ => "10.00")
            (mklis (GoMap.empty.set 0 10).entries)).tail) :=
  ⟨by decide, by decide, by decide,
    cancel_stops_loop (fun _ => none) (fun _ => none)
      (fun _ => "1970-01-01T00:00:00Z") (fun _ => "10.00")
      [["date", "supply", "updated"]] GoMap.empty
      (fun d => if d = 0 then Outcome.ran 10 else Outcome.cancel) [0] [48 * Hour]
      (24 * Hour) ⟨1, GoMap.empty.set 0 10, [0]⟩ (by decide) (by decide) (by decide)
      (by decide) (by decide)⟩

/-! ## The rows -/

/-- The sorted rows are the rows of the entries sorted by day. -/
theorem mklis_eq_map (it : List (Time × ℚ)) :
    mklis it = (it.insertionSort (fun a b => ¬ b.1 < a.1)).map mkrow := by
  simp only [mklis, sortStable]
  exact (List.map_insertionSort (fun a b : Time × ℚ => ¬ b.1 < a.1)
    (fun a b : csvrow => ¬ b.Dat < a.Dat) mkrow it (fun a _ b _ => Iff.rfl)).symm

theorem mklis_perm (it : List (Time × ℚ)) : (mklis it).Perm (it.map mkrow) := by
  simp only [mklis, sortStable]
  exact List.perm_insertionSort _ _

theorem mklis_days_perm (it : List (Time × ℚ)) :
    ((mklis it).map csvrow.Dat).Perm (it.map Prod.fst) := by
  have h := (mklis_perm it).map csvrow.Dat
  rw [List.map_map] at h
  exact h

/-- With pairwise distinct days, the days of the sorted rows increase
strictly. -/
theorem mklis_sorted (it : List (Time × ℚ)) (hnd : (it.map Prod.fst).Nodup) :
    ((mklis it).map csvrow.Dat).Sorted (· < ·) := by
  haveI : IsTotal csvrow (fun a b => ¬ b.Dat < a.Dat) :=
    ⟨fun a b => by
      rcases lt_or_le b.Dat a.Dat with h | h
      · exact Or.inr (not_lt.2 h.le)
      · exact Or.inl (not_lt.2 h)⟩
  haveI : IsTrans csvrow (fun a b => ¬ b.Dat < a.Dat) :=
    ⟨fun a b c h1 h2 => not_lt.2 (le_trans (not_lt.1 h1) (not_lt.1 h2))⟩
  have hs : (mklis it).Sorted (fun a b => ¬ b.Dat < a.Dat) :=
    List.sorted_insertionSort _ _
  have hle : ((mklis it).map csvrow.Dat).Sorted (· ≤ ·) := by
    simp only [List.Sorted, List.pairwise_map]
    exact hs.imp (fun h => not_lt.1 h)
  exact hle.lt_of_le ((mklis_days_perm it).nodup_iff.2 hnd)

/-- C8: for every run map and every order in which Go iterates over it, the
rows built for the CSV writer have strictly increasing days (so they are
sorted ascending by day with at most one row per day), and the days of the
rows are exactly the keys of the map. -/
theorem rows_sorted_one_per_day (m : GoMap) (it : List (Time × ℚ))
    (hit : it.Perm m.entries) :
    ((mklis it).map csvrow.Dat).Sorted (· < ·) ∧
    ((mklis it).map csvrow.Dat).Chain' (· < ·) ∧
    ((mklis it).map csvrow.Dat).Nodup ∧
    (∀ d, d ∈ (mklis it).map csvrow.Dat ↔ d ∈ m.keys) ∧
    (∀ d, d ∈ (mklis it).map csvrow.Dat ↔ ∃ v, m.get? d = some v) := by
  have hnd : (it.map Prod.fst).Nodup := (hit.map Prod.fst).nodup_iff.2 m.nodupKeys
  have hs := mklis_sorted it hnd
  have hk : ∀ d, d ∈ (mklis it).map csvrow.Dat ↔ d ∈ m.keys := fun d =>
    ((mklis_days_perm it).trans (hit.map Prod.fst)).mem_iff
  refine ⟨hs, List.Pairwise.chain' hs, (mklis_days_perm it).nodup_iff.2 hnd, hk, ?_⟩
  intro d
  rw [hk d, GoMap.mem_keys_iff]

/-- Witness of C8: a map with two days, iterated in descending order. -/
theorem rows_sorted_one_per_day_witness :
    List.Perm [(24 * Hour, (-10 : ℚ)), (0, 10)]
      ((GoMap.empty.set 0 10).set (24 * Hour) (-10)).entries ∧
    mklis [(24 * Hour, -10), (0, 10)] = [⟨0, 10, 1⟩, ⟨24 * Hour, 10, 0⟩] ∧
    (((mklis [(24 * Hour, -10), (0, 10)]).map csvrow.Dat).Sorted (· < ·) ∧
    ((mklis [(24 * Hour, -10), (0, 10)]).map csvrow.Dat).Chain' (· < ·) ∧
    ((mklis [(24 * Hour, -10), (0, 10)]).map csvrow.Dat).Nodup ∧
    (∀ d, d ∈ (mklis [(24 * Hour, -10), (0, 10)]).map csvrow.Dat ↔
      d ∈ ((GoMap.empty.set 0 10).set (24 * Hour) (-10)).keys) ∧
    (∀ d, d ∈ (mklis [(24 * Hour, -10), (0, 10)]).map csvrow.Dat ↔
      ∃ v, ((GoMap.empty.set 0 10).set (24 * Hour) (-10)).get? d = some v)) :=
  ⟨by decide, by decide,
    rows_sorted_one_per_day ((GoMap.empty.set 0 10).set (24 * Hour) (-10))
      [(24 * Hour, -10), (0, 10)] (by decide)⟩

/-! ## The cache loader -/

theorem loadRows_append (Parse : String → Option Time) (ParseFloat : String → Option ℚ)
    (xs ys : List (List String)) :
    ∀ cur, loadRows Parse ParseFloat cur (xs ++ ys) =
      (loadRows Parse ParseFloat cur xs).bind (fun c => loadRows Parse ParseFloat c ys) := by
  induction xs with
  | nil => intro cur; rfl
  | cons x xs ih =>
    intro cur
    simp only [List.cons_append, loadRows]
    cases loadRow Parse ParseFloat cur x with
    | none => rfl
    | some c => exact ih c

/-- A row whose third field is neither "0" nor "1" leaves the cache as it is. -/
theorem loadRow_other_flag (Parse : String → Option Time)
    (ParseFloat : String → Option ℚ) (cur : GoMap) (x : List String) (flag : String)
    (hx : x[2]? = some flag) (h0 : flag ≠ "0") (h1 : flag ≠ "1") :
    loadRow Parse ParseFloat cur x = some cur := by
  simp [loadRow, hx, h0, h1]

/-- C9 (amended): the cache loader does not fail on a data row whose status
flag is neither "0" nor "1": it skips the row silently, without parsing its
day or magnitude, so that the table loads exactly as it does without the
row. -/
theorem loader_skips_unrecognized_flag (Parse : String → Option Time)
    (ParseFloat : String → Option ℚ) (header : List String)
    (pre post : List (List String)) (x : List String) (flag : String)
    (hx : x[2]? = some flag) (h0 : flag ≠ "0") (h1 : flag ≠ "1") :
    loadCache Parse ParseFloat (header :: (pre ++ x :: post)) =
      loadCache Parse ParseFloat (header :: (pre ++ post)) := by
  simp only [loadCache]
  rw [loadRows_append, loadRows_append]
  cases loadRows Parse ParseFloat GoMap.empty pre with
  | none => rfl
  | some c =>
    simp only [Option.some_bind, loadRows]
    rw [loadRow_other_flag Parse ParseFloat c x flag hx h0 h1]

/-- Witness of C9 (amended): a row flagged "2" whose day and magnitude do not
even parse. -/
theorem loader_skips_unrecognized_flag_witness :
    loadCache (fun _ => none) (fun _ => none)
        (["date", "supply", "updated"] :: ([] ++ ["yesterday", "many", "2"] :: [])) =
      loadCache (fun _ => none) (fun _ => none)
        (["date", "supply", "updated"] :: ([] ++ [])) :=
  loader_skips_unrecognized_flag (fun _ => none) (fun _ => none)
    ["date", "supply", "updated"] [] [] ["yesterday", "many", "2"] "2"
    (by decide) (by decide) (by decide)

/-- C9 (as stated) fails: a table whose only data row has the status flag "2"
loads without error, as the empty cache. -/
theorem loader_accepts_unrecognized_flag :
    loadCache (fun s => if s = "2020-12-01T00:00:00Z" then some 0 else none)
        (fun s => if s = "1.00" then some 1 else none)
        [["date", "supply", "updated"], ["2020-12-01T00:00:00Z", "1.00", "2"]] =
      some GoMap.empty := by
  decide

/-- A row flagged "1" stores the parsed magnitude, a row flagged "0" its
negation. -/
theorem loadRow_flag (Parse : String → Option Time) (ParseFloat : String → Option ℚ)
    (cur : GoMap) (ds ms : String) (k : Time) (m : ℚ)
    (hd : Parse ds = some k) (hm : ParseFloat ms = some m) :
    loadRow Parse ParseFloat cur [ds, ms, "1"] = some (cur.set k m) ∧
    loadRow Parse ParseFloat cur [ds, ms, "0"] = some (cur.set k (-m)) := by
  constructor
  · simp [loadRow, mustim, musf64, hd, hm]
  · simp [loadRow, mustim, musf64, hd, hm]

/-- Loading the text of the row built for an entry stores, for its day, the
parsed magnitude with the sign the flag stands for. -/
theorem loadRow_mkrow (Parse : String → Option Time) (ParseFloat : String → Option ℚ)
    (Format : Time → String) (Sprintf2f : ℚ → String) (cur : GoMap) (e : Time × ℚ)
    (m : ℚ) (hd : Parse (Format e.1) = some e.1)
    (hm : ParseFloat (Sprintf2f |e.2|) = some m) :
    loadRow Parse ParseFloat cur
      [Format (mkrow e).Dat, Sprintf2f (mkrow e).Supply, toString (mkrow e).Updated]
      = some (cur.set e.1 (signed e.2 m)) := by
  have h := loadRow_flag Parse ParseFloat cur (Format e.1) (Sprintf2f |e.2|) e.1 m hd hm
  by_cases hv : e.2 > 0
  · have hu : toString (mkrow e).Updated = "1" := by
      simp only [mkrow, if_pos hv]; rfl
    rw [hu]
    show loadRow Parse ParseFloat cur [Format e.1, Sprintf2f |e.2|, "1"] = _
    rw [h.1, signed, if_pos hv]
  · have hu : toString (mkrow e).Updated = "0" := by
      simp only [mkrow, if_neg hv]; rfl
    rw [hu]
    show loadRow Parse ParseFloat cur [Format e.1, Sprintf2f |e.2|, "0"] = _
    rw [h.2, signed, if_neg hv]

/-- The value read back is the value written exactly when the magnitude is
read back. -/
theorem signed_eq_self_iff (v m : ℚ) : signed v m = v ↔ m = |v| := by
  by_cases hv : v > 0
  · rw [signed, if_pos hv, abs_of_pos hv]
  · rw [signed, if_neg hv, abs_of_nonpos (not_lt.1 hv)]
    constructor
    · intro h; rw [← h, neg_neg]
    · intro h; rw [h, neg_neg]

/-- C10 (amended): the row built for a signed value `v` has magnitude `|v|`
and flag 1 exactly when `v > 0`, flag 0 otherwise; the loader turns flag "1"
into `+magnitude` and flag "0" into `-magnitude`, of the magnitude `m` that
the written text parses to; so loading the row emitted for `(k, v)` stores for
`k` the value `m` with the sign convention of `v`, and this is `v` again
exactly when the text of the magnitude parses back to `|v|`. -/
theorem sign_convention_reload (Parse : String → Option Time)
    (ParseFloat : String → Option ℚ) (Format : Time → String)
    (Sprintf2f : ℚ → String) (cur : GoMap) (k : Time) (v m : ℚ)
    (hd : Parse (Format k) = some k) (hm : ParseFloat (Sprintf2f |v|) = some m) :
    (mkrow (k, v)).Dat = k ∧ (mkrow (k, v)).Supply = |v| ∧
    ((mkrow (k, v)).Updated = 1 ↔ v > 0) ∧ ((mkrow (k, v)).Updated = 0 ↔ ¬ v > 0) ∧
    loadRow Parse ParseFloat cur [Format k, Sprintf2f |v|, "1"] = some (cur.set k m) ∧
    loadRow Parse ParseFloat cur [Format k, Sprintf2f |v|, "0"] = some (cur.set k (-m)) ∧
    loadCache Parse ParseFloat (mkres Format Sprintf2f [mkrow (k, v)]) =
      some (GoMap.empty.set k (if v > 0 then m else -m)) ∧
    (loadCache Parse ParseFloat (mkres Format Sprintf2f [mkrow (k, v)])).map
      (fun c => c.get? k) = some (some (if v > 0 then m else -m)) ∧
    ((if v > 0 then m else -m) = v ↔ m = |v|) := by
  have hf := loadRow_flag Parse ParseFloat cur (Format k) (Sprintf2f |v|) k m hd hm
  have hl : loadCache Parse ParseFloat (mkres Format Sprintf2f [mkrow (k, v)]) =
      some (GoMap.empty.set k (if v > 0 then m else -m)) := by
    simp only [loadCache, mkres, List.map_cons, List.map_nil, loadRows]
    rw [loadRow_mkrow Parse ParseFloat Format Sprintf2f GoMap.empty (k, v) m hd hm]
    rfl
  refine ⟨rfl, rfl, ?_, ?_, hf.1, hf.2, hl, ?_, signed_eq_self_iff v m⟩
  · by_cases hv : v > 0 <;> simp [mkrow, hv]
  · by_cases hv : v > 0 <;> simp [mkrow, hv]
  · rw [hl]
    simp [GoMap.get?_set_self]

/-- Witness of C10 (amended): the Provisional value -100 on day 0. -/
theorem sign_convention_reload_witness :
    (mkrow (0, -100)).Dat = 0 ∧ (mkrow (0, -100)).Supply = |(-100 : ℚ)| ∧
    ((mkrow (0, -100)).Updated = 1 ↔ (-100 : ℚ) > 0) ∧
    ((mkrow (0, -100)).Updated = 0 ↔ ¬ (-100 : ℚ) > 0) ∧
    loadRow (fun s => if s = "1970-01-01T00:00:00Z" then some 0 else none)
      (fun s => if s = "100.00" then some 100 else none) GoMap.empty
      [(fun _ => "1970-01-01T00:00:00Z") (0 : Time), (fun _ => "100.00") |(-100 : ℚ)|, "1"]
      = some (GoMap.empty.set 0 100) ∧
    loadRow (fun s => if s = "1970-01-01T00:00:00Z" then some 0 else none)
      (fun s => if s = "100.00" then some 100 else none) GoMap.empty
      [(fun _ => "1970-01-01T00:00:00Z") (0 : Time), (fun _ => "100.00") |(-100 : ℚ)|, "0"]
      = some (GoMap.empty.set 0 (-100)) ∧
    loadCache (fun s => if s = "1970-01-01T00:00:00Z" then some 0 else none)
      (fun s => if s = "100.00" then some 100 else none)
      (mkres (fun _ => "1970-01-01T00:00:00Z") (fun _ => "100.00") [mkrow (0, -100)]) =
      some (GoMap.empty.set 0 (if (-100 : ℚ) > 0 then 100 else -100)) ∧
    (loadCache (fun s => if s = "1970-01-01T00:00:00Z" then some 0 else none)
      (fun s => if s = "100.00" then some 100 else none)
      (mkres (fun _ => "1970-01-01T00:00:00Z") (fun _ => "100.00")
        [mkrow (0, -100)])).map (fun c => c.get? 0) =
      some (some (if (-100 : ℚ) > 0 then 100 else -100)) ∧
    ((if (-100 : ℚ) > 0 then (100 : ℚ) else -100) = -100 ↔ (100 : ℚ) = |(-100 : ℚ)|) :=
  sign_convention_reload (fun s => if s = "1970-01-01T00:00:00Z" then some 0 else none)
    (fun s => if s = "100.00" then some 100 else none)
    (fun _ => "1970-01-01T00:00:00Z") (fun _ => "100.00") GoMap.empty 0 (-100) 100
    (by decide) (by decide)

/-- C10 (as stated) fails on the round trip: the Finalized value 0.004 is
written with `%.2f` as the row `0.00`, `1`, and loading that row yields 0, not
0.004. The four functions take the values of `time.Parse`, `ParseFloat`,
`Time.Format` and `Sprintf("%.2f", _)` at the texts and numbers that occur. -/
theorem sign_convention_roundtrip_fails :
    (mkRat 1 250 : ℚ) ≠ 0 ∧
    mkres (fun _ => "1970-01-01T00:00:00Z")
      (fun q => if q = mkRat 1 250 then "0.00" else "?") [mkrow (0, mkRat 1 250)] =
      [["date", "supply", "updated"], ["1970-01-01T00:00:00Z", "0.00", "1"]] ∧
    (loadCache (fun s => if s = "1970-01-01T00:00:00Z" then some 0 else none)
      (fun s => if s = "0.00" then some 0 else none)
      (mkres (fun _ => "1970-01-01T00:00:00Z")
        (fun q => if q = mkRat 1 250 then "0.00" else "?")
        [mkrow (0, mkRat 1 250)])).map (fun c => c.get? 0) = some (some 0) ∧
    (0 : ℚ) ≠ mkRat 1 250 := by
  decide

/-! ## Running twice -/

/-- The core of idempotence: a second loop whose cache agrees, on the days
still to come, with the final map of a first loop that was neither stopped nor
short of quota rebuilds that final map, without counting any day. -/
theorem loop_twice (cur cur2 : GoMap) (exe : Time → Outcome) (sF : State)
    (hq : sF.cou < reqlim) (xs : List Time) :
    ∀ (a b : State), xs.Nodup → loop cur exe a xs = .next sF →
      (∀ x ∈ xs, cur2.get? x = sF.des.get? x) → b.des = a.des → b.cou < reqlim →
      ∃ s2, loop cur2 exe b xs = .next s2 ∧ s2.des = sF.des ∧ s2.cou = b.cou := by
  induction xs with
  | nil =>
    intro a b _ h _ hab _
    simp only [loop, Ctl.next.injEq] at h
    subst h
    exact ⟨b, rfl, hab, rfl⟩
  | cons x xs ih =>
    intro a b hnd h hc2 hab hb
    have hxs : x ∉ xs := (List.nodup_cons.1 hnd).1
    have hnd' : xs.Nodup := (List.nodup_cons.1 hnd).2
    simp only [loop] at h
    cases hs : step cur exe a x with
    | brk s1 => rw [hs] at h; cases h
    | fatal => rw [hs] at h; cases h
    | next a1 =>
      rw [hs] at h
      replace h : loop cur exe a1 xs = .next sF := h
      obtain ⟨hdF, l, -, -, -, hcF, -⟩ := loop_effect cur exe xs a1 sF (by rw [h]; rfl)
      have hc2x : cur2.get? x = a1.des.get? x := by
        rw [hc2 x (List.mem_cons_self x xs), hdF x hxs]
      have hc2' : ∀ y ∈ xs, cur2.get? y = sF.des.get? y :=
        fun y hy => hc2 y (List.mem_cons_of_mem _ hy)
      have hstep2 : ∃ b1, step cur2 exe b x = .next b1 ∧ b1.des = a1.des ∧
          b1.cou = b.cou := by
        by_cases hf : (cur.get? x).isSome ∧ cur.get x > 0
        · rw [step_final cur exe a x hf] at hs
          simp only [Ctl.next.injEq] at hs
          subst hs
          have hg : cur2.get? x = some (cur.get x) := by
            rw [hc2x]; exact GoMap.get?_set_self _ _ _
          have hf2 : (cur2.get? x).isSome ∧ cur2.get x > 0 := by
            rw [GoMap.get_of_get? hg, hg]; exact ⟨rfl, hf.2⟩
          refine ⟨_, step_final cur2 exe b x hf2, ?_, rfl⟩
          show b.des.set x (cur2.get x) = a.des.set x (cur.get x)
          rw [GoMap.get_of_get? hg, hab]
        · have hlt : a.cou < reqlim := by
            obtain ⟨-, he⟩ := step_effect cur exe a a1 x (by rw [hs]; rfl)
            rcases he with ⟨-, hc, -⟩ | ⟨-, -, hlt, -⟩
            · omega
            · exact hlt
          rw [step_fetch cur exe a x hf hlt] at hs
          cases he : exe x with
          | cancel => rw [he] at hs; cases hs
          | passed => rw [he] at hs; cases hs
          | fatal => rw [he] at hs; cases hs
          | ran f =>
            rw [he] at hs
            simp only [Ctl.next.injEq] at hs
            subst hs
            have hact : ∃ w, act f a.des x = a.des.set x w := ⟨_, rfl⟩
            obtain ⟨w, hw⟩ := hact
            have hg : cur2.get? x = some w := by
              rw [hc2x]
              show (act f a.des x).get? x = some w
              rw [hw]; exact GoMap.get?_set_self _ _ _
            by_cases hpos : w > 0
            · have hf2 : (cur2.get? x).isSome ∧ cur2.get x > 0 := by
                rw [GoMap.get_of_get? hg, hg]; exact ⟨rfl, hpos⟩
              refine ⟨_, step_final cur2 exe b x hf2, ?_, rfl⟩
              show b.des.set x (cur2.get x) = act f a.des x
              rw [GoMap.get_of_get? hg, hab, hw]
            · have hf2 : ¬ ((cur2.get? x).isSome ∧ cur2.get x > 0) := by
                rw [GoMap.get_of_get? hg]; exact fun c => hpos c.2
              refine ⟨⟨b.cou, act f b.des x, b.log ++ [x]⟩, ?_, ?_, rfl⟩
              · rw [step_fetch cur2 exe b x hf2 hb, he, hg]
                simp
              · show act f b.des x = act f a.des x
                rw [hab]
      obtain ⟨b1, hb1, hd1, hcb1⟩ := hstep2
      obtain ⟨s2, hl2, hd2, hc2⟩ := ih a1 b1 hnd' h hc2' hd1 (by rw [hcb1]; exact hb)
      refine ⟨s2, ?_, hd2, by rw [hc2, hcb1]⟩
      simp only [loop, hb1]
      exact hl2

/-- The lookups of the map built by storing a list of entries with distinct
keys one after the other. -/
theorem foldl_set_get? (es : List (Time × ℚ)) (k : Time) :
    ∀ c0 : GoMap, (es.map Prod.fst).Nodup →
      (es.foldl (fun c e => c.set e.1 e.2) c0).get? k =
        match es.find? (fun e => decide (e.1 = k)) with
        | some e => some e.2
        | none => c0.get? k := by
  induction es with
  | nil => intro c0 _; rfl
  | cons e es ih =>
    intro c0 hnd
    rw [List.map_cons, List.nodup_cons] at hnd
    rw [List.foldl_cons, ih _ hnd.2, List.find?_cons]
    by_cases he : e.1 = k
    · have hn : es.find? (fun e => decide (e.1 = k)) = none := by
        rw [List.find?_eq_none]
        intro e' he' hk
        simp only [decide_eq_true_eq] at hk
        exact hnd.1 (List.mem_map.2 ⟨e', he', by rw [hk, he]⟩)
      rw [hn]
      simp only [he, decide_True]
      exact GoMap.get?_set_self _ _ _
    · simp only [he, decide_False]
      cases es.find? (fun e => decide (e.1 = k)) with
      | some e' => rfl
      | none => exact GoMap.get?_set_ne _ _ (fun h => he h.symm)

/-- Loading the texts of the rows of a list of entries stores, one after the
other, what each row is read back as. -/
theorem loadRows_mkrow (Parse : String → Option Time) (ParseFloat : String → Option ℚ)
    (Format : Time → String) (Sprintf2f : ℚ → String) (rnd : ℚ → ℚ)
    (es : List (Time × ℚ)) :
    ∀ c0 : GoMap,
      (∀ e ∈ es, Parse (Format e.1) = some e.1 ∧
        ParseFloat (Sprintf2f |e.2|) = some (rnd |e.2|)) →
      loadRows Parse ParseFloat c0 ((es.map mkrow).map
        (fun x => [Format x.Dat, Sprintf2f x.Supply, toString x.Updated])) =
        some ((es.map (fun e => (e.1, signed e.2 (rnd |e.2|)))).foldl
          (fun c e => c.set e.1 e.2) c0) := by
  induction es with
  | nil => intro c0 _; rfl
  | cons e es ih =>
    intro c0 h
    obtain ⟨hd, hm⟩ := h e (List.mem_cons_self e es)
    simp only [List.map_cons, loadRows, List.foldl_cons]
    rw [loadRow_mkrow Parse ParseFloat Format Sprintf2f c0 e (rnd |e.2|) hd hm]
    exact ih _ (fun e' he' => h e' (List.mem_cons_of_mem _ he'))

/-- Loading the table written for a map gives a cache with the same keys whose
values are the written values read back. -/
theorem loadCache_mkres (Parse : String → Option Time) (ParseFloat : String → Option ℚ)
    (Format : Time → String) (Sprintf2f : ℚ → String) (rnd : ℚ → ℚ) (m : GoMap)
    (h : ∀ e ∈ m.entries, Parse (Format e.1) = some e.1 ∧
      ParseFloat (Sprintf2f |e.2|) = some (rnd |e.2|)) :
    ∃ c, loadCache Parse ParseFloat (mkres Format Sprintf2f (mklis m.entries)) = some c ∧
      ∀ k, c.get? k = (m.get? k).map (fun v => signed v (rnd |v|)) := by
  have hp : (m.entries.insertionSort (fun a b => ¬ b.1 < a.1)).Perm m.entries :=
    List.perm_insertionSort _ _
  have hfst : ((m.entries.insertionSort (fun a b => ¬ b.1 < a.1)).map
      (fun e => (e.1, signed e.2 (rnd |e.2|)))).map Prod.fst =
      (m.entries.insertionSort (fun a b => ¬ b.1 < a.1)).map Prod.fst := by
    rw [List.map_map]; rfl
  have hnd : (((m.entries.insertionSort (fun a b => ¬ b.1 < a.1)).map
      (fun e => (e.1, signed e.2 (rnd |e.2|)))).map Prod.fst).Nodup := by
    rw [hfst]
    exact (hp.map Prod.fst).nodup_iff.2 m.nodupKeys
  refine ⟨((m.entries.insertionSort (fun a b => ¬ b.1 < a.1)).map
    (fun e => (e.1, signed e.2 (rnd |e.2|)))).foldl
    (fun c e => c.set e.1 e.2) GoMap.empty, ?_, ?_⟩
  · simp only [loadCache, mkres]
    rw [mklis_eq_map]
    exact loadRows_mkrow Parse ParseFloat Format Sprintf2f rnd _ GoMap.empty
      (fun e he => h e (hp.mem_iff.1 he))
  · intro k
    rw [foldl_set_get? _ k GoMap.empty hnd]
    apply Option.ext
    intro w
    simp only [Option.mem_def, Option.map_eq_some']
    have h1 : (match ((m.entries.insertionSort (fun a b => ¬ b.1 < a.1)).map
          (fun e => (e.1, signed e.2 (rnd |e.2|)))).find? (fun e => decide (e.1 = k)) with
        | some e => some e.2
        | none => GoMap.empty.get? k) = some w ↔
        (k, w) ∈ (m.entries.insertionSort (fun a b => ¬ b.1 < a.1)).map
          (fun e => (e.1, signed e.2 (rnd |e.2|))) := by
      rw [← GoMap.get?_eq_some_iff ⟨_, hnd⟩ k w]
      simp only [GoMap.get?]
      cases ((m.entries.insertionSort (fun a b => ¬ b.1 < a.1)).map
          (fun e => (e.1, signed e.2 (rnd |e.2|)))).find?
          (fun e => decide (e.1 = k)) with
      | some e => simp
      | none => simp [GoMap.empty]
    rw [h1, List.mem_map]
    constructor
    · rintro ⟨⟨k', v⟩, he, heq⟩
      simp only [Prod.mk.injEq] at heq
      obtain ⟨rfl, rfl⟩ := heq
      exact ⟨v, (GoMap.get?_eq_some_iff m k' v).2 (hp.mem_iff.1 he), rfl⟩
    · rintro ⟨v, hv, rfl⟩
      exact ⟨(k, v), hp.mem_iff.2 ((GoMap.get?_eq_some_iff m k v).1 hv), rfl⟩

theorem Close.refl (rnd : ℚ → ℚ) (a : ℚ) : Close rnd a a := Or.inl rfl

theorem Close.pos_iff {rnd : ℚ → ℚ} {a b : ℚ} (h : Close rnd a b) : b > 0 ↔ a > 0 := by
  rcases h with h | ⟨-, hr, h⟩
  · rw [h]
  · rw [h, signed]
    by_cases ha : a > 0
    · simp [ha, hr]
    · simp only [ha, if_false, iff_false, not_lt]
      exact neg_nonpos.2 hr.le

theorem Close.abs_eq {rnd : ℚ → ℚ} {a b : ℚ} (h : Close rnd a b) :
    |b| = |a| ∨ |b| = rnd |a| := by
  rcases h with h | ⟨-, hr, h⟩
  · left; rw [h]
  · right
    rw [h, signed]
    by_cases ha : a > 0
    · rw [if_pos ha, abs_of_pos hr]
    · rw [if_neg ha, abs_neg, abs_of_pos hr]

/-- The value stored for an Unknown answer, as a function of `pre`. -/
theorem act_unknown_set (des : GoMap) (x : Time) :
    act (-1) des x = des.set x (if des.get (x.Add (-24 * Hour)) = 0 then -1
      else -|des.get (x.Add (-24 * Hour))|) := by
  show des.set x _ = des.set x _
  congr 1
  generalize des.get (x.Add (-24 * Hour)) = p
  rcases lt_trichotomy p 0 with h | h | h
  · simp [h, not_lt.2 h.le, h.ne, abs_of_neg h]
  · simp [h]
  · simp [h, not_lt.2 h.le, h.ne', abs_of_pos h]

/-- An answer other than `-1` is stored as it is. -/
theorem act_known (f : ℚ) (des : GoMap) (x : Time) (hf : f ≠ -1) :
    act f des x = des.set x f := by
  show des.set x _ = des.set x f
  congr 1
  simp [hf]

theorem Close.unknown {rnd : ℚ → ℚ} {p q : ℚ} (h : Close rnd p q) :
    Close rnd (if p = 0 then -1 else -|p|) (if q = 0 then -1 else -|q|) := by
  rcases h with h | ⟨hp, hr, h⟩
  · rw [h]; exact Close.refl _ _
  · have habs : |q| = rnd |p| := by
      rw [h, signed]
      by_cases ha : p > 0
      · rw [if_pos ha, abs_of_pos hr]
      · rw [if_neg ha, abs_neg, abs_of_pos hr]
    have hq : q ≠ 0 := by
      intro h0
      rw [h0, abs_zero] at habs
      exact hr.ne habs
    rw [if_neg hp, if_neg hq, habs]
    right
    have hneg : ¬ (-|p| > 0) := not_lt.2 (neg_nonpos.2 (abs_nonneg p))
    refine ⟨neg_ne_zero.2 (abs_ne_zero.2 hp), by rw [abs_neg, abs_abs]; exact hr, ?_⟩
    rw [signed, if_neg hneg, abs_neg, abs_abs]

theorem Agree.get {rnd : ℚ → ℚ} {d1 d2 : GoMap} (h : Agree rnd d1 d2) (k : Time) :
    Close rnd (d1.get k) (d2.get k) := by
  rcases h k with ⟨h1, h2⟩ | ⟨a, b, h1, h2, hc⟩
  · rw [GoMap.get, GoMap.get, h1, h2]; exact Close.refl _ _
  · rw [GoMap.get_of_get? h1, GoMap.get_of_get? h2]; exact hc

theorem Agree.set {rnd : ℚ → ℚ} {d1 d2 : GoMap} (h : Agree rnd d1 d2) (x : Time)
    {a b : ℚ} (hc : Close rnd a b) : Agree rnd (d1.set x a) (d2.set x b) := by
  intro k
  by_cases hk : k = x
  · subst hk
    exact Or.inr ⟨a, b, GoMap.get?_set_self _ _ _, GoMap.get?_set_self _ _ _, hc⟩
  · rw [GoMap.get?_set_ne d1 a hk, GoMap.get?_set_ne d2 b hk]
    exact h k

/-- The core of idempotence through the written table: a second loop whose
cache holds the final map of a first loop as read back from its rows rebuilds
a map that is written as the same rows, without counting any day. -/
theorem loop_again (cur cur2 : GoMap) (exe : Time → Outcome) (rnd : ℚ → ℚ)
    (sF : State) (hq : sF.cou < reqlim)
    (hnn : ∀ k v, sF.des.get? k = some v → 0 ≤ rnd |v|) (xs : List Time) :
    ∀ (a b : State), xs.Nodup → loop cur exe a xs = .next sF →
      (∀ x ∈ xs, cur2.get? x = (sF.des.get? x).map (fun v => signed v (rnd |v|))) →
      (∀ x ∈ xs, ∀ v, cur.get? x = some v → v > 0 → rnd |v| > 0) →
      Agree rnd a.des b.des → b.cou < reqlim →
      ∃ s2, loop cur2 exe b xs = .next s2 ∧ Agree rnd sF.des s2.des ∧
        s2.cou = b.cou := by
  induction xs with
  | nil =>
    intro a b _ h _ _ hab _
    simp only [loop, Ctl.next.injEq] at h
    subst h
    exact ⟨b, rfl, hab, rfl⟩
  | cons x xs ih =>
    intro a b hnd h hc2 hpos hab hb
    have hxs : x ∉ xs := (List.nodup_cons.1 hnd).1
    have hnd' : xs.Nodup := (List.nodup_cons.1 hnd).2
    simp only [loop] at h
    cases hs : step cur exe a x with
    | brk s1 => rw [hs] at h; cases h
    | fatal => rw [hs] at h; cases h
    | next a1 =>
      rw [hs] at h
      replace h : loop cur exe a1 xs = .next sF := h
      obtain ⟨hdF, l, -, -, -, hcF, -⟩ := loop_effect cur exe xs a1 sF (by rw [h]; rfl)
      have hc2' : ∀ y ∈ xs, cur2.get? y =
          (sF.des.get? y).map (fun v => signed v (rnd |v|)) :=
        fun y hy => hc2 y (List.mem_cons_of_mem _ hy)
      have hpos' : ∀ y ∈ xs, ∀ v, cur.get? y = some v → v > 0 → rnd |v| > 0 :=
        fun y hy => hpos y (List.mem_cons_of_mem _ hy)
      -- what the second run does once the first run has stored `w` for `x`
      have hstored : ∀ w, a1.des = a.des.set x w →
          ((w > 0 ∧ rnd |w| > 0) ∨
            ∃ f, exe x = .ran f ∧ ∀ d, act f d x =
              d.set x (if f = -1 then (if d.get (x.Add (-24 * Hour)) = 0 then -1
                else -|d.get (x.Add (-24 * Hour))|) else f)) →
          (∀ f d, exe x = .ran f → act f d x = d.set x
              (if f = -1 then (if d.get (x.Add (-24 * Hour)) = 0 then -1
                else -|d.get (x.Add (-24 * Hour))|) else f) →
            ¬ (w > 0 ∧ rnd |w| > 0) →
            w = (if f = -1 then (if a.des.get (x.Add (-24 * Hour)) = 0 then -1
                else -|a.des.get (x.Add (-24 * Hour))|) else f)) →
          ∃ b1, step cur2 exe b x = .next b1 ∧ Agree rnd a1.des b1.des ∧
            b1.cou = b.cou := by
        intro w hw hor hval
        have hsw : sF.des.get? x = some w := by
          rw [hdF x hxs, hw]; exact GoMap.get?_set_self _ _ _
        have hg : cur2.get? x = some (signed w (rnd |w|)) := by
          rw [hc2 x (List.mem_cons_self x xs), hsw]; rfl
        have hnw : 0 ≤ rnd |w| := hnn x w hsw
        by_cases hfin : w > 0 ∧ rnd |w| > 0
        · have hsg : signed w (rnd |w|) = rnd |w| := by rw [signed, if_pos hfin.1]
          have hf2 : (cur2.get? x).isSome ∧ cur2.get x > 0 := by
            rw [GoMap.get_of_get? hg, hg, hsg]; exact ⟨rfl, hfin.2⟩
          refine ⟨_, step_final cur2 exe b x hf2, ?_, rfl⟩
          show Agree rnd a1.des (b.des.set x (cur2.get x))
          rw [GoMap.get_of_get? hg, hw]
          exact hab.set x (Or.inr ⟨hfin.1.ne', hfin.2, rfl⟩)
        · have hf2 : ¬ ((cur2.get? x).isSome ∧ cur2.get x > 0) := by
            rw [GoMap.get_of_get? hg, signed]
            rintro ⟨-, hc⟩
            by_cases hw0 : w > 0
            · rw [if_pos hw0] at hc; exact hfin ⟨hw0, hc⟩
            · rw [if_neg hw0] at hc
              exact absurd hc (not_lt.2 (neg_nonpos.2 hnw))
          rcases hor with hor | ⟨f, he, hact⟩
          · exact absurd hor hfin
          · have hwv := hval f a.des he (hact a.des) hfin
            refine ⟨⟨b.cou, act f b.des x, b.log ++ [x]⟩, ?_, ?_, rfl⟩
            · rw [step_fetch cur2 exe b x hf2 hb, he, hg]
              simp
            · show Agree rnd a1.des (act f b.des x)
              rw [hw, hact b.des, hwv]
              refine hab.set x ?_
              by_cases hf1 : f = -1
              · rw [if_pos hf1, if_pos hf1]
                exact (hab.get _).unknown
              · rw [if_neg hf1, if_neg hf1]
                exact Close.refl _ _
      have hstep2 : ∃ b1, step cur2 exe b x = .next b1 ∧ Agree rnd a1.des b1.des ∧
          b1.cou = b.cou := by
        by_cases hf : (cur.get? x).isSome ∧ cur.get x > 0
        · rw [step_final cur exe a x hf] at hs
          simp only [Ctl.next.injEq] at hs
          subst hs
          have hcx : cur.get? x = some (cur.get x) := by
            cases hg : cur.get? x with
            | none => rw [hg] at hf; exact absurd hf.1 (by simp)
            | some v => rw [GoMap.get_of_get? hg]
          have hr : rnd |cur.get x| > 0 :=
            hpos x (List.mem_cons_self x xs) _ hcx hf.2
          exact hstored (cur.get x) rfl (Or.inl ⟨hf.2, hr⟩)
            (fun _ _ _ _ hn => absurd ⟨hf.2, hr⟩ hn)
        · have hlt : a.cou < reqlim := by
            obtain ⟨-, he⟩ := step_effect cur exe a a1 x (by rw [hs]; rfl)
            rcases he with ⟨-, hc, -⟩ | ⟨-, -, hlt, -⟩
            · omega
            · exact hlt
          rw [step_fetch cur exe a x hf hlt] at hs
          cases he : exe x with
          | cancel => rw [he] at hs; cases hs
          | passed => rw [he] at hs; cases hs
          | fatal => rw [he] at hs; cases hs
          | ran f =>
            rw [he] at hs
            simp only [Ctl.next.injEq] at hs
            subst hs
            have hact : ∀ d, act f d x = d.set x
                (if f = -1 then (if d.get (x.Add (-24 * Hour)) = 0 then -1
                  else -|d.get (x.Add (-24 * Hour))|) else f) := by
              intro d
              by_cases hf1 : f = -1
              · rw [if_pos hf1, hf1]; exact act_unknown_set d x
              · rw [if_neg hf1]; exact act_known f d x hf1
            refine hstored _ (hact a.des) (Or.inr ⟨f, he, hact⟩) ?_
            intro f' d he' _ _
            rw [he] at he'
            cases he'
            rfl
      obtain ⟨b1, hb1, hd1, hcb1⟩ := hstep2
      obtain ⟨s2, hl2, hd2, hc2⟩ :=
        ih a1 b1 hnd' h hc2' hpos' hd1 (by rw [hcb1]; exact hb)
      refine ⟨s2, ?_, hd2, by rw [hc2, hcb1]⟩
      simp only [loop, hb1]
      exact hl2

/-- The sorted rows of a map, listed along its sorted days. -/
theorem mklis_eq_map_days (m : GoMap) :
    mklis m.entries =
      ((mklis m.entries).map csvrow.Dat).map (fun k => mkrow (k, m.get k)) := by
  rw [mklis_eq_map, List.map_map, List.map_map]
  apply List.map_congr_left
  intro e he
  have hm : (e.1, e.2) ∈ m.entries := (List.perm_insertionSort _ _).mem_iff.1 he
  have hg : m.get e.1 = e.2 := GoMap.get_of_get? ((GoMap.get?_eq_some_iff m e.1 e.2).2 hm)
  show mkrow e = mkrow (e.1, m.get e.1)
  rw [hg]

/-- Two maps that agree are written as the same table, when a magnitude read
back prints as the same text. -/
theorem mkres_agree (Format : Time → String) (Sprintf2f : ℚ → String) (rnd : ℚ → ℚ)
    (d1 d2 : GoMap) (hA : Agree rnd d1 d2)
    (hst : ∀ k v, d1.get? k = some v → Sprintf2f (rnd |v|) = Sprintf2f |v|) :
    mkres Format Sprintf2f (mklis d2.entries) = mkres Format Sprintf2f (mklis d1.entries) := by
  have hkeys : ∀ k, k ∈ d2.keys ↔ k ∈ d1.keys := by
    intro k
    rw [GoMap.mem_keys_iff, GoMap.mem_keys_iff]
    rcases hA k with ⟨h1, h2⟩ | ⟨a, b, h1, h2, -⟩
    · rw [h1, h2]
    · rw [h1, h2]; exact ⟨fun _ => ⟨a, rfl⟩, fun _ => ⟨b, rfl⟩⟩
  have hs1 := mklis_sorted d1.entries d1.nodupKeys
  have hs2 := mklis_sorted d2.entries d2.nodupKeys
  have hn1 : ((mklis d1.entries).map csvrow.Dat).Nodup :=
    (mklis_days_perm d1.entries).nodup_iff.2 d1.nodupKeys
  have hn2 : ((mklis d2.entries).map csvrow.Dat).Nodup :=
    (mklis_days_perm d2.entries).nodup_iff.2 d2.nodupKeys
  have hperm : ((mklis d2.entries).map csvrow.Dat).Perm ((mklis d1.entries).map csvrow.Dat) := by
    rw [List.perm_ext_iff_of_nodup hn2 hn1]
    intro k
    rw [(mklis_days_perm d2.entries).mem_iff, (mklis_days_perm d1.entries).mem_iff]
    exact hkeys k
  have hK : (mklis d2.entries).map csvrow.Dat = (mklis d1.entries).map csvrow.Dat :=
    List.eq_of_perm_of_sorted hperm hs2 hs1
  have e1 := mklis_eq_map_days d1
  have e2 := mklis_eq_map_days d2
  rw [hK] at e2
  simp only [mkres]
  congr 1
  conv_lhs => rw [e2]
  conv_rhs => rw [e1]
  simp only [List.map_map]
  apply List.map_congr_left
  intro r hr
  have hk1 : r.Dat ∈ d1.keys :=
    (mklis_days_perm d1.entries).mem_iff.1 (List.mem_map_of_mem csvrow.Dat hr)
  rcases hA r.Dat with ⟨h1, -⟩ | ⟨a, b, h1, h2, hc⟩
  · obtain ⟨v, hv⟩ := (GoMap.mem_keys_iff d1 r.Dat).1 hk1
    rw [h1] at hv; cases hv
  · have hpos := hc.pos_iff
    have htxt : Sprintf2f |b| = Sprintf2f |a| := by
      rcases hc.abs_eq with h | h
      · rw [h]
      · rw [h]; exact hst r.Dat a h1
    simp only [Function.comp, mkrow, GoMap.get_of_get? h1, GoMap.get_of_get? h2, htxt]
    by_cases ha : a > 0
    · rw [if_pos ha, if_pos (hpos.2 ha)]
    · rw [if_neg ha, if_neg (fun h => ha (hpos.1 h))]

/-- C7 (amended): idempotence of a run. If a first run over a grid without
repeated days completes without cancellation and without reaching the quota,
then a second run seeded with the table the first run wrote, over the same
grid and with the same fetcher answers, writes the same table again, provided
that every day written parses back, every magnitude written parses to a
non-negative value `rnd m` that prints as the same text, and every Finalized
value the first run took from the cache is still positive when read back from
its two-decimal text. Moreover a second run whose cache has the lookups of
the first run's output map ends with exactly that map. -/
theorem run_idempotent_when_finalized_survive (Parse : String → Option Time)
    (ParseFloat : String → Option ℚ) (Format : Time → String)
    (Sprintf2f : ℚ → String) (rnd : ℚ → ℚ)
    (row : List (List String)) (grid : List Time) (exe : Time → Outcome)
    (cur : GoMap) (s1 : State) (hnd : grid.Nodup)
    (hcur : loadCache Parse ParseFloat row = some cur)
    (hrun : loop cur exe State.init grid = .next s1) (hq : s1.cou < reqlim)
    (hcodec : ∀ e ∈ s1.des.entries, Parse (Format e.1) = some e.1 ∧
      ParseFloat (Sprintf2f |e.2|) = some (rnd |e.2|) ∧ 0 ≤ rnd |e.2| ∧
      Sprintf2f (rnd |e.2|) = Sprintf2f |e.2|)
    (hpos : ∀ x ∈ grid, ∀ v, cur.get? x = some v → v > 0 → rnd |v| > 0) :
    main Parse ParseFloat Format Sprintf2f row grid exe =
      some (mkres Format Sprintf2f (mklis s1.des.entries)) ∧
    main Parse ParseFloat Format Sprintf2f
      (mkres Format Sprintf2f (mklis s1.des.entries)) grid exe =
      some (mkres Format Sprintf2f (mklis s1.des.entries)) ∧
    (∀ cur2 : GoMap, (∀ k, cur2.get? k = s1.des.get? k) →
      ∃ s2, loop cur2 exe State.init grid = .next s2 ∧ s2.des = s1.des) := by
  have htwice : ∀ cur2 : GoMap, (∀ k, cur2.get? k = s1.des.get? k) →
      ∃ s2, loop cur2 exe State.init grid = .next s2 ∧ s2.des = s1.des := by
    intro cur2 h2
    obtain ⟨s2, hl, hd, -⟩ := loop_twice cur cur2 exe s1 hq grid State.init State.init
      hnd hrun (fun x _ => h2 x) rfl (by simp [State.init, reqlim])
    exact ⟨s2, hl, hd⟩
  refine ⟨?_, ?_, htwice⟩
  · simp [main, hcur, hrun, Ctl.state?]
  · obtain ⟨c, hc, hget⟩ := loadCache_mkres Parse ParseFloat Format Sprintf2f rnd s1.des
      (fun e he => ⟨(hcodec e he).1, (hcodec e he).2.1⟩)
    have hent : ∀ k v, s1.des.get? k = some v → (k, v) ∈ s1.des.entries :=
      fun k v h => (GoMap.get?_eq_some_iff _ _ _).1 h
    obtain ⟨s2, hl, hA, -⟩ := loop_again cur c exe rnd s1 hq
      (fun k v h => (hcodec (k, v) (hent k v h)).2.2.1) grid State.init State.init
      hnd hrun (fun x _ => hget x) hpos
      (fun k => Or.inl ⟨rfl, rfl⟩) (by simp [State.init, reqlim])
    have ht := mkres_agree Format Sprintf2f rnd s1.des s2.des hA
      (fun k v h => (hcodec (k, v) (hent k v h)).2.2.2)
    simp [main, hc, hl, Ctl.state?, ht]

/-- Witness of C7 (amended): day 0 is cached as Finalized 10, day 1 is fetched
as 21726.333 and written as 21726.33; the second run reads 21726.33 and writes
the same table. -/
theorem run_idempotent_when_finalized_survive_witness :
    mkres (fun t => if t = 0 then "1970-01-01T00:00:00Z" else "1970-01-02T00:00:00Z") (fun q => if q = 10 then "10.00" else "21726.33")
      (mklis ((GoMap.empty.set 0 10).set (24 * Hour) (mkRat 21726333 1000)).entries) =
      [["date", "supply", "updated"], ["1970-01-01T00:00:00Z", "10.00", "1"],
        ["1970-01-02T00:00:00Z", "21726.33", "1"]] ∧
    main (fun s => if s = "1970-01-01T00:00:00Z" then some 0
        else if s = "1970-01-02T00:00:00Z" then some (24 * Hour) else none)
      (fun s => if s = "10.00" then some 10
        else if s = "21726.33" then some (mkRat 2172633 100) else none)
      (fun t => if t = 0 then "1970-01-01T00:00:00Z" else "1970-01-02T00:00:00Z")
      (fun q => if q = 10 then "10.00" else "21726.33")
      [["date", "supply", "updated"], ["1970-01-01T00:00:00Z", "10.00", "1"]] [0, 24 * Hour]
      (fun _ => Outcome.ran (mkRat 21726333 1000)) =
      some (mkres (fun t => if t = 0 then "1970-01-01T00:00:00Z" else "1970-01-02T00:00:00Z") (fun q => if q = 10 then "10.00" else "21726.33")
        (mklis ((GoMap.empty.set 0 10).set (24 * Hour) (mkRat 21726333 1000)).entries)) ∧
    main (fun s => if s = "1970-01-01T00:00:00Z" then some 0
        else if s = "1970-01-02T00:00:00Z" then some (24 * Hour) else none)
      (fun s => if s = "10.00" then some 10
        else if s = "21726.33" then some (mkRat 2172633 100) else none)
      (fun t => if t = 0 then "1970-01-01T00:00:00Z" else "1970-01-02T00:00:00Z")
      (fun q => if q = 10 then "10.00" else "21726.33")
      (mkres (fun t => if t = 0 then "1970-01-01T00:00:00Z" else "1970-01-02T00:00:00Z") (fun q => if q = 10 then "10.00" else "21726.33")
        (mklis ((GoMap.empty.set 0 10).set (24 * Hour) (mkRat 21726333 1000)).entries)) [0, 24 * Hour]
      (fun _ => Outcome.ran (mkRat 21726333 1000)) =
      some (mkres (fun t => if t = 0 then "1970-01-01T00:00:00Z" else "1970-01-02T00:00:00Z") (fun q => if q = 10 then "10.00" else "21726.33")
        (mklis ((GoMap.empty.set 0 10).set (24 * Hour) (mkRat 21726333 1000)).entries)) ∧
    (∀ cur2 : GoMap,
      (∀ k, cur2.get? k = ((GoMap.empty.set 0 10).set (24 * Hour) (mkRat 21726333 1000)).get? k) →
      ∃ s2, loop cur2 (fun _ => Outcome.ran (mkRat 21726333 1000)) State.init [0, 24 * Hour] = .next s2 ∧
        s2.des = ((GoMap.empty.set 0 10).set (24 * Hour) (mkRat 21726333 1000))) :=
  ⟨by decide,
    run_idempotent_when_finalized_survive
      (fun s => if s = "1970-01-01T00:00:00Z" then some 0
        else if s = "1970-01-02T00:00:00Z" then some (24 * Hour) else none)
      (fun s => if s = "10.00" then some 10
        else if s = "21726.33" then some (mkRat 2172633 100) else none)
      (fun t => if t = 0 then "1970-01-01T00:00:00Z" else "1970-01-02T00:00:00Z")
      (fun q => if q = 10 then "10.00" else "21726.33")
      (fun m => if m = mkRat 21726333 1000 then mkRat 2172633 100 else m)
      [["date", "supply", "updated"], ["1970-01-01T00:00:00Z", "10.00", "1"]] [0, 24 * Hour]
      (fun _ => Outcome.ran (mkRat 21726333 1000)) (GoMap.empty.set 0 10)
      ⟨1, ((GoMap.empty.set 0 10).set (24 * Hour) (mkRat 21726333 1000)), [24 * Hour]⟩
      (by decide) (by decide) (by decide) (by decide) (by decide)
      (by
        intro x hx v hv hp
        simp only [List.mem_cons, List.mem_singleton, List.not_mem_nil, or_false] at hx
        rcases hx with rfl | rfl
        · have h10 : v = 10 := by
            have h0 : (GoMap.empty.set 0 10).get? 0 = some 10 := by decide
            rw [h0] at hv
            exact (Option.some.inj hv).symm
          subst h10
          decide
        · have h1 : (GoMap.empty.set 0 10).get? (24 * Hour) = none := by decide
          rw [h1] at hv
          cases hv)⟩

/-- C7 (as stated) fails: the cache holds day 0 as Finalized 0.004 and the
fetcher answers 7 for day 0. The first run completes without a fetch and
writes the row `0.00`, `1`; the second run reads 0, which is not Finalized,
fetches the day and writes `7.00`, `1`. The four functions take the values of
`time.Parse`, `ParseFloat`, `Time.Format` and `Sprintf("%.2f", _)` at the
texts and numbers that occur. -/
theorem run_not_idempotent_below_half_cent :
    loadCache (fun s => if s = "1970-01-01T00:00:00Z" then some 0 else none)
      (fun s => if s = "0.004" then some (mkRat 1 250) else if s = "0.00" then some 0
        else if s = "7.00" then some 7 else none)
      [["date", "supply", "updated"], ["1970-01-01T00:00:00Z", "0.004", "1"]] =
      some (GoMap.empty.set 0 (mkRat 1 250)) ∧
    loop (GoMap.empty.set 0 (mkRat 1 250)) (fun _ => Outcome.ran 7) State.init [0] =
      .next ⟨0, GoMap.empty.set 0 (mkRat 1 250), []⟩ ∧
    main (fun s => if s = "1970-01-01T00:00:00Z" then some 0 else none)
      (fun s => if s = "0.004" then some (mkRat 1 250) else if s = "0.00" then some 0
        else if s = "7.00" then some 7 else none)
      (fun _ => "1970-01-01T00:00:00Z")
      (fun q => if q = mkRat 1 250 then "0.00" else if q = 7 then "7.00" else "?")
      [["date", "supply", "updated"], ["1970-01-01T00:00:00Z", "0.004", "1"]] [0]
      (fun _ => Outcome.ran 7) =
      some [["date", "supply", "updated"], ["1970-01-01T00:00:00Z", "0.00", "1"]] ∧
    main (fun s => if s = "1970-01-01T00:00:00Z" then some 0 else none)
      (fun s => if s = "0.004" then some (mkRat 1 250) else if s = "0.00" then some 0
        else if s = "7.00" then some 7 else none)
      (fun _ => "1970-01-01T00:00:00Z")
      (fun q => if q = mkRat 1 250 then "0.00" else if q = 7 then "7.00" else "?")
      [["date", "supply", "updated"], ["1970-01-01T00:00:00Z", "0.00", "1"]] [0]
      (fun _ => Outcome.ran 7) =
      some [["date", "supply", "updated"], ["1970-01-01T00:00:00Z", "7.00", "1"]] ∧
    [["date", "supply", "updated"], ["1970-01-01T00:00:00Z", "0.00", "1"]] ≠
      [["date", "supply", "updated"], ["1970-01-01T00:00:00Z", "7.00", "1"]] := by
  decide

end MoneySupply
